import Mathlib

set_option maxHeartbeats 1000000

/-!
Verification development for two utilities: a recursive JSON structural
diff (`jsondiff.py`) and an iterative spherical k-means clusterer
(`skmeans.py`).  The first part shallowly embeds the JSON diff: Python
values coming out of `json.load` (where both an absent key and a JSON
null are represented by `None`) become the inductive type `JValue`, with
`jnull` playing the role of Python's `None`.
-/

namespace Jsondiff

/-- A Python value as produced by `json.load`: `None`, `bool`, `int`,
`float`, `str`, `list` or `dict`.  Dicts are association lists of
string keys (JSON objects have unique keys).  Floats are modelled
exactly (the diff only ever compares them for equality, never does
arithmetic on them). -/
inductive JValue where
  | jnull : JValue
  | jbool (b : Bool) : JValue
  | jint (n : Int) : JValue
  | jfloat (q : Rat) : JValue
  | jstr (s : String) : JValue
  | jlist (items : List JValue) : JValue
  | jdict (entries : List (String × JValue)) : JValue

mutual

/-- Structural equality test on `JValue` (Python `==` restricted to
operands of the same runtime type, which is the only way the diff ever
uses it). -/
def JValue.beq : JValue → JValue → Bool
  | .jnull, .jnull => true
  | .jbool a, .jbool b => a == b
  | .jint a, .jint b => a == b
  | .jfloat a, .jfloat b => a == b
  | .jstr a, .jstr b => a == b
  | .jlist xs, .jlist ys => beqList xs ys
  | .jdict xs, .jdict ys => beqDict xs ys
  | _, _ => false

def beqList : List JValue → List JValue → Bool
  | [], [] => true
  | x :: xs, y :: ys => JValue.beq x y && beqList xs ys
  | _, _ => false

def beqDict : List (String × JValue) → List (String × JValue) → Bool
  | [], [] => true
  | (k1, v1) :: xs, (k2, v2) :: ys => k1 == k2 && JValue.beq v1 v2 && beqDict xs ys
  | _, _ => false

end

mutual

theorem JValue.beq_iff : ∀ a b : JValue, JValue.beq a b = true ↔ a = b
  | .jnull, b => by cases b <;> simp [JValue.beq]
  | .jbool a, b => by cases b <;> simp [JValue.beq]
  | .jint a, b => by cases b <;> simp [JValue.beq]
  | .jfloat a, b => by cases b <;> simp [JValue.beq]
  | .jstr a, b => by cases b <;> simp [JValue.beq]
  | .jlist xs, b => by
    cases b with
    | jlist ys =>
      have h := beqList_iff xs ys
      simp only [JValue.beq, h, JValue.jlist.injEq]
    | jnull => simp [JValue.beq]
    | jbool b => simp [JValue.beq]
    | jint n => simp [JValue.beq]
    | jfloat q => simp [JValue.beq]
    | jstr s => simp [JValue.beq]
    | jdict kvs => simp [JValue.beq]
  | .jdict xs, b => by
    cases b with
    | jdict ys =>
      have h := beqDict_iff xs ys
      simp only [JValue.beq, h, JValue.jdict.injEq]
    | jnull => simp [JValue.beq]
    | jbool b => simp [JValue.beq]
    | jint n => simp [JValue.beq]
    | jfloat q => simp [JValue.beq]
    | jstr s => simp [JValue.beq]
    | jlist xs2 => simp [JValue.beq]

theorem beqList_iff : ∀ xs ys : List JValue, beqList xs ys = true ↔ xs = ys
  | [], [] => by simp [beqList]
  | [], _ :: _ => by simp [beqList]
  | _ :: _, [] => by simp [beqList]
  | x :: xs, y :: ys => by
    have h1 := JValue.beq_iff x y
    have h2 := beqList_iff xs ys
    simp [beqList, h1, h2]

theorem beqDict_iff : ∀ xs ys : List (String × JValue), beqDict xs ys = true ↔ xs = ys
  | [], [] => by simp [beqDict]
  | [], _ :: _ => by simp [beqDict]
  | _ :: _, [] => by simp [beqDict]
  | (k1, v1) :: xs, (k2, v2) :: ys => by
    have h1 := JValue.beq_iff v1 v2
    have h2 := beqDict_iff xs ys
    simp [beqDict, h1, h2, and_assoc]

end

instance : DecidableEq JValue := fun a b =>
  decidable_of_iff (JValue.beq a b = true) (JValue.beq_iff a b)

/-- The Python runtime type tag of a value, as compared by
`type(a_side) != type(b_side)`.  Note that in Python `int` and `float`
are distinct types, as are `bool` and `int`. -/
inductive PType where
  | tnull : PType
  | tbool : PType
  | tint : PType
  | tfloat : PType
  | tstr : PType
  | tlist : PType
  | tdict : PType
deriving DecidableEq

def ptype : JValue → PType
  | .jnull => .tnull
  | .jbool _ => .tbool
  | .jint _ => .tint
  | .jfloat _ => .tfloat
  | .jstr _ => .tstr
  | .jlist _ => .tlist
  | .jdict _ => .tdict

def A_SIDE : String := "A_SIDE"

def B_SIDE : String := "B_SIDE"

/-- Python `dict.get(key)`: the value stored at `key`, or `None`
(`jnull`) when the key is absent. -/
def dget : List (String × JValue) → String → JValue
  | [], _ => .jnull
  | (k, v) :: rest, key => if k = key then v else dget rest key

def keys (kvs : List (String × JValue)) : List String := kvs.map Prod.fst

/-- Python `key in dict`. -/
def hasKey (kvs : List (String × JValue)) (key : String) : Bool :=
  kvs.any (fun p => p.1 == key)

/-- Python `set(a) | set(b)` over dict keys, iterated deterministically:
the keys of `a` in order, then the keys of `b` not already present. -/
def unionKeys (da db : List (String × JValue)) : List String :=
  keys da ++ (keys db).filter (fun k => !hasKey da k)

/-- `itertools.zip_longest` with the default fill value `None`. -/
def zipLongest : List JValue → List JValue → List (JValue × JValue)
  | [], [] => []
  | [], y :: ys => (.jnull, y) :: zipLongest [] ys
  | x :: xs, [] => (x, .jnull) :: zipLongest xs []
  | x :: xs, y :: ys => (x, y) :: zipLongest xs ys

theorem sizeOf_dget (kvs : List (String × JValue)) (key : String) :
    sizeOf (dget kvs key) ≤ sizeOf kvs := by
  induction kvs with
  | nil => simp [dget]
  | cons p rest ih =>
    obtain ⟨k, v⟩ := p
    simp only [dget]
    split
    · simp
      omega
    · simp
      omega

theorem sizeOf_zipLongest :
    ∀ (la lb : List JValue) (p : JValue × JValue), p ∈ zipLongest la lb →
      sizeOf p.1 + sizeOf p.2 < sizeOf la + sizeOf lb
  | [], [], p, h => by simp [zipLongest] at h
  | [], y :: ys, p, h => by
    simp only [zipLongest, List.mem_cons] at h
    rcases h with rfl | h
    · simp
      omega
    · have := sizeOf_zipLongest [] ys p h
      simp at this ⊢
      omega
  | x :: xs, [], p, h => by
    simp only [zipLongest, List.mem_cons] at h
    rcases h with rfl | h
    · simp
      omega
    · have := sizeOf_zipLongest xs [] p h
      simp at this ⊢
      omega
  | x :: xs, y :: ys, p, h => by
    simp only [zipLongest, List.mem_cons] at h
    rcases h with rfl | h
    · simp
      omega
    · have := sizeOf_zipLongest xs ys p h
      simp at this ⊢
      omega

mutual

/-- `difference(a_side, b_side)` from `jsondiff.py`, clause for clause:
missing side first (where "missing" is Python `None`, i.e. `jnull`),
then the runtime-type mismatch check, then the dict and list cases,
then the scalar comparison. -/
def difference (a_side b_side : JValue) : JValue :=
  if b_side = JValue.jnull then JValue.jdict [(A_SIDE, a_side)]
  else if a_side = JValue.jnull then JValue.jdict [(B_SIDE, b_side)]
  else if ptype a_side ≠ ptype b_side then
    JValue.jdict [(A_SIDE, a_side), (B_SIDE, b_side)]
  else
    match a_side, b_side with
    | JValue.jdict da, JValue.jdict db => JValue.jdict (diffDict (unionKeys da db) da db)
    | JValue.jlist la, JValue.jlist lb => JValue.jlist (diffList la lb)
    | a, b => if a = b then a else JValue.jdict [(A_SIDE, a), (B_SIDE, b)]
termination_by (sizeOf a_side + sizeOf b_side, 0)
decreasing_by
  · apply Prod.Lex.left
    simp <;> omega
  · apply Prod.Lex.left
    simp <;> omega

/-- The dict comprehension
`{ key : difference(a.get(key), b.get(key)) for key in set(a) | set(b) }`,
unrolled over the (deterministically ordered) key list. -/
def diffDict (ks : List String) (da db : List (String × JValue)) :
    List (String × JValue) :=
  match ks with
  | [] => []
  | k :: rest => (k, difference (dget da k) (dget db k)) :: diffDict rest da db
termination_by (sizeOf da + sizeOf db, ks.length)
decreasing_by
  · have h1 := sizeOf_dget da k
    have h2 := sizeOf_dget db k
    rcases lt_or_eq_of_le (Nat.add_le_add h1 h2) with h | h
    · exact Prod.Lex.left _ _ h
    · rw [h]
      apply Prod.Lex.right
      simp
  · apply Prod.Lex.right
    simp

/-- The list comprehension
`[difference(a, b) for a, b in zip_longest(a_side, b_side)]`, unrolled. -/
def diffList : List JValue → List JValue → List JValue
  | [], [] => []
  | [], y :: ys => difference JValue.jnull y :: diffList [] ys
  | x :: xs, [] => difference x JValue.jnull :: diffList xs []
  | x :: xs, y :: ys => difference x y :: diffList xs ys
termination_by la lb => (sizeOf la + sizeOf lb, 0)
decreasing_by
  · apply Prod.Lex.left
    simp <;> omega
  · apply Prod.Lex.left
    simp <;> omega
  · apply Prod.Lex.left
    simp <;> omega
  · apply Prod.Lex.left
    simp <;> omega
  · apply Prod.Lex.left
    simp <;> omega
  · apply Prod.Lex.left
    simp <;> omega

end

/-- `diffDict` is exactly the dict comprehension over the key list. -/
theorem diffDict_eq_map (ks : List String) (da db : List (String × JValue)) :
    diffDict ks da db = ks.map (fun k => (k, difference (dget da k) (dget db k))) := by
  induction ks with
  | nil => simp [diffDict]
  | cons k rest ih => simp [diffDict, ih]

/-- `diffList` is exactly `difference` mapped over `zip_longest`. -/
theorem diffList_eq_map :
    ∀ la lb : List JValue,
      diffList la lb = (zipLongest la lb).map (fun p => difference p.1 p.2)
  | [], [] => by simp [diffList, zipLongest]
  | [], y :: ys => by
    simp only [diffList, zipLongest, List.map_cons]
    rw [diffList_eq_map [] ys]
  | x :: xs, [] => by
    simp only [diffList, zipLongest, List.map_cons]
    rw [diffList_eq_map xs []]
  | x :: xs, y :: ys => by
    simp only [diffList, zipLongest, List.map_cons]
    rw [diffList_eq_map xs ys]

/-- The keys of an association list are pairwise distinct — the data-model
invariant of a Python dict / JSON object. -/
def nodupKeys : List (String × JValue) → Bool
  | [] => true
  | (k, _) :: rest => !hasKey rest k && nodupKeys rest

mutual

/-- Well-formed value: every mapping inside has unique keys. -/
def wf : JValue → Bool
  | .jlist xs => wfList xs
  | .jdict kvs => nodupKeys kvs && wfDict kvs
  | _ => true
termination_by v => sizeOf v
decreasing_by
  all_goals simp <;> omega

def wfList : List JValue → Bool
  | [] => true
  | x :: xs => wf x && wfList xs
termination_by xs => sizeOf xs
decreasing_by
  all_goals simp <;> omega

def wfDict : List (String × JValue) → Bool
  | [] => true
  | (_, v) :: rest => wf v && wfDict rest
termination_by kvs => sizeOf kvs
decreasing_by
  all_goals simp <;> omega

end

mutual

/-- No `jnull` (Python `None`) occurs anywhere in the value. -/
def noNull : JValue → Bool
  | .jnull => false
  | .jlist xs => noNullList xs
  | .jdict kvs => noNullDict kvs
  | _ => true
termination_by v => sizeOf v
decreasing_by
  all_goals simp <;> omega

def noNullList : List JValue → Bool
  | [] => true
  | x :: xs => noNull x && noNullList xs
termination_by xs => sizeOf xs
decreasing_by
  all_goals simp <;> omega

def noNullDict : List (String × JValue) → Bool
  | [] => true
  | (_, v) :: rest => noNull v && noNullDict rest
termination_by kvs => sizeOf kvs
decreasing_by
  all_goals simp <;> omega

end

mutual

/-- No mapping anywhere in the value uses the reserved `A_SIDE`/`B_SIDE`
key names (the documented precondition of the tool). -/
def noReserved : JValue → Bool
  | .jlist xs => noReservedList xs
  | .jdict kvs => !hasKey kvs A_SIDE && !hasKey kvs B_SIDE && noReservedDict kvs
  | _ => true
termination_by v => sizeOf v
decreasing_by
  all_goals simp <;> omega

def noReservedList : List JValue → Bool
  | [] => true
  | x :: xs => noReserved x && noReservedList xs
termination_by xs => sizeOf xs
decreasing_by
  all_goals simp <;> omega

def noReservedDict : List (String × JValue) → Bool
  | [] => true
  | (_, v) :: rest => noReserved v && noReservedDict rest
termination_by kvs => sizeOf kvs
decreasing_by
  all_goals simp <;> omega

end

/-- A difference-marker node: a mapping carrying one of the reserved
keys — the exact test `B_SIDE in diff or A_SIDE in diff` used by
`list_differences`. -/
def isMarker : JValue → Bool
  | .jdict kvs => hasKey kvs B_SIDE || hasKey kvs A_SIDE
  | _ => false

mutual

/-- No difference-marker node occurs anywhere in the value. -/
def noMarkerIn : JValue → Bool
  | .jlist xs => noMarkerInList xs
  | .jdict kvs => !(hasKey kvs B_SIDE || hasKey kvs A_SIDE) && noMarkerInDict kvs
  | _ => true
termination_by v => sizeOf v
decreasing_by
  all_goals simp <;> omega

def noMarkerInList : List JValue → Bool
  | [] => true
  | x :: xs => noMarkerIn x && noMarkerInList xs
termination_by xs => sizeOf xs
decreasing_by
  all_goals simp <;> omega

def noMarkerInDict : List (String × JValue) → Bool
  | [] => true
  | (_, v) :: rest => noMarkerIn v && noMarkerInDict rest
termination_by kvs => sizeOf kvs
decreasing_by
  all_goals simp <;> omega

end

/-- Decimal rendering of a natural number — what Python's
`"{0}".format(i)` produces for a nonnegative `int`. -/
def natStr (n : ℕ) : String :=
  if n = 0 then "0" else ((Nat.digits 10 n).reverse.map Nat.digitChar).asString

/-- The breadcrumb segment `"List[{0}]".format(i)` pushed for a list index. -/
def listSeg (i : ℕ) : String := "List[" ++ natStr i ++ "]"

mutual

/-- `list_differences` from `jsondiff.py` as a pure producer of rows
`(breadcrumb, b_value, a_value)`: at a marker mapping it emits one row
(the printed line) and does not recurse; at other mappings it recurses
per key pushing the key; at lists it recurses per index pushing
`List[i]`; scalars produce nothing.  The Python `key_stack.append`/`pop`
stack discipline becomes passing `key_stack ++ [seg]`. -/
def list_differences (diff : JValue) (key_stack : List String) :
    List (List String × JValue × JValue) :=
  match diff with
  | JValue.jdict kvs =>
    if hasKey kvs B_SIDE || hasKey kvs A_SIDE then
      [(key_stack, dget kvs B_SIDE, dget kvs A_SIDE)]
    else listDiffEntries kvs key_stack
  | JValue.jlist xs => listDiffItems xs 0 key_stack
  | _ => []
termination_by sizeOf diff
decreasing_by
  all_goals simp <;> omega

/-- The loop `for key in diff: push key; recurse; pop`. -/
def listDiffEntries (kvs : List (String × JValue)) (key_stack : List String) :
    List (List String × JValue × JValue) :=
  match kvs with
  | [] => []
  | (k, v) :: rest =>
    list_differences v (key_stack ++ [k]) ++ listDiffEntries rest key_stack
termination_by sizeOf kvs
decreasing_by
  all_goals simp <;> omega

/-- The loop `for i, v in enumerate(diff): push "List[i]"; recurse; pop`,
with `i` the index of the head of `xs`. -/
def listDiffItems (xs : List JValue) (i : ℕ) (key_stack : List String) :
    List (List String × JValue × JValue) :=
  match xs with
  | [] => []
  | v :: rest =>
    list_differences v (key_stack ++ [listSeg i]) ++ listDiffItems rest (i + 1) key_stack
termination_by sizeOf xs
decreasing_by
  all_goals simp <;> omega

end

/-- The breadcrumbs of the emitted rows. -/
def rowPaths (rows : List (List String × JValue × JValue)) : List (List String) :=
  rows.map Prod.fst

mutual

/-- The breadcrumbs (relative to the node) of the difference-marker
nodes of a merged value, not descending into markers — the paths at
which `list_differences` emits rows. -/
def markerPaths (diff : JValue) : List (List String) :=
  match diff with
  | JValue.jdict kvs =>
    if hasKey kvs B_SIDE || hasKey kvs A_SIDE then [[]]
    else markerPathsEntries kvs
  | JValue.jlist xs => markerPathsItems xs 0
  | _ => []
termination_by sizeOf diff
decreasing_by
  all_goals simp <;> omega

def markerPathsEntries (kvs : List (String × JValue)) : List (List String) :=
  match kvs with
  | [] => []
  | (k, v) :: rest => (markerPaths v).map (fun p => k :: p) ++ markerPathsEntries rest
termination_by sizeOf kvs
decreasing_by
  all_goals simp <;> omega

def markerPathsItems (xs : List JValue) (i : ℕ) : List (List String) :=
  match xs with
  | [] => []
  | v :: rest => (markerPaths v).map (fun p => listSeg i :: p) ++ markerPathsItems rest (i + 1)
termination_by sizeOf xs
decreasing_by
  all_goals simp <;> omega

end

/-- The merged value has a difference-marker node at breadcrumb `p`,
where navigation passes only through non-marker mappings and list
positions (a marker's descendants are not addressed, matching the
traversal's skip rule). -/
inductive MarkerAt : JValue → List String → Prop where
  | here (kvs : List (String × JValue))
      (hm : (hasKey kvs B_SIDE || hasKey kvs A_SIDE) = true) :
      MarkerAt (JValue.jdict kvs) []
  | inDict (kvs : List (String × JValue)) (k : String) (v : JValue) (p : List String)
      (hm : (hasKey kvs B_SIDE || hasKey kvs A_SIDE) = false)
      (hmem : (k, v) ∈ kvs) (hp : MarkerAt v p) :
      MarkerAt (JValue.jdict kvs) (k :: p)
  | inList (xs : List JValue) (i : ℕ) (v : JValue) (p : List String)
      (hget : xs.get? i = some v) (hp : MarkerAt v p) :
      MarkerAt (JValue.jlist xs) (listSeg i :: p)

@[simp]
theorem keys_nil : keys [] = [] := rfl

@[simp]
theorem keys_cons (k : String) (v : JValue) (rest : List (String × JValue)) :
    keys ((k, v) :: rest) = k :: keys rest := rfl

theorem hasKey_iff (kvs : List (String × JValue)) (key : String) :
    hasKey kvs key = true ↔ key ∈ keys kvs := by
  induction kvs with
  | nil => simp [hasKey, keys]
  | cons p rest ih =>
    obtain ⟨k, v⟩ := p
    simp only [hasKey, List.any_cons, Bool.or_eq_true, beq_iff_eq, keys_cons, List.mem_cons]
    rw [← ih]
    simp [hasKey]
    tauto

theorem hasKey_eq_false_iff (kvs : List (String × JValue)) (key : String) :
    hasKey kvs key = false ↔ key ∉ keys kvs := by
  constructor
  · intro h hcon
    rw [← hasKey_iff, h] at hcon
    exact Bool.false_ne_true hcon
  · intro h
    cases hfact : hasKey kvs key
    · rfl
    · exact absurd ((hasKey_iff kvs key).mp hfact) h

theorem nodupKeys_iff (kvs : List (String × JValue)) :
    nodupKeys kvs = true ↔ (keys kvs).Nodup := by
  induction kvs with
  | nil => simp [nodupKeys, keys]
  | cons p rest ih =>
    obtain ⟨k, v⟩ := p
    simp only [nodupKeys, Bool.and_eq_true, Bool.not_eq_eq_eq_not, Bool.not_true, ih, keys_cons,
      List.nodup_cons]
    rw [hasKey_eq_false_iff]

theorem dget_mem (kvs : List (String × JValue)) (key : String)
    (h : key ∈ keys kvs) : (key, dget kvs key) ∈ kvs := by
  induction kvs with
  | nil => simp [keys] at h
  | cons p rest ih =>
    obtain ⟨k, v⟩ := p
    simp only [dget]
    by_cases hk : k = key
    · subst hk
      simp
    · rw [if_neg hk]
      simp only [keys_cons, List.mem_cons] at h
      rcases h with h | h
      · exact absurd h.symm hk
      · exact List.mem_cons_of_mem _ (ih h)

theorem dget_eq_of_mem (kvs : List (String × JValue)) (key : String) (v : JValue)
    (hnd : nodupKeys kvs = true) (hmem : (key, v) ∈ kvs) : dget kvs key = v := by
  induction kvs with
  | nil => simp at hmem
  | cons p rest ih =>
    obtain ⟨k, w⟩ := p
    simp only [nodupKeys, Bool.and_eq_true, Bool.not_eq_eq_eq_not, Bool.not_true] at hnd
    simp only [List.mem_cons, Prod.mk.injEq] at hmem
    simp only [dget]
    rcases hmem with ⟨rfl, rfl⟩ | hmem
    · simp
    · by_cases hk : k = key
      · subst hk
        exfalso
        have hin : k ∈ keys rest := by
          simp only [keys, List.mem_map]
          exact ⟨(k, v), hmem, rfl⟩
        exact absurd hin ((hasKey_eq_false_iff rest k).mp hnd.1)
      · rw [if_neg hk]
        exact ih hnd.2 hmem

theorem keys_map_dget (kvs : List (String × JValue)) (h : nodupKeys kvs = true) :
    (keys kvs).map (fun key => (key, dget kvs key)) = kvs := by
  induction kvs with
  | nil => simp [keys]
  | cons p rest ih =>
    obtain ⟨k, v⟩ := p
    simp only [nodupKeys, Bool.and_eq_true, Bool.not_eq_eq_eq_not, Bool.not_true] at h
    have hcongr : ∀ key ∈ keys rest,
        (fun key => (key, dget ((k, v) :: rest) key)) key =
          (fun key => (key, dget rest key)) key := by
      intro key hkey
      have hne : k ≠ key := by
        intro hcon
        subst hcon
        exact absurd hkey ((hasKey_eq_false_iff rest k).mp h.1)
      simp [dget, hne]
    rw [keys_cons, List.map_cons, List.map_congr_left hcongr, ih h.2]
    simp [dget]

theorem unionKeys_self (kvs : List (String × JValue)) : unionKeys kvs kvs = keys kvs := by
  have hfil : (keys kvs).filter (fun k => !hasKey kvs k) = [] := by
    rw [List.filter_eq_nil_iff]
    intro k hk
    have := (hasKey_iff kvs k).mpr hk
    simp [this]
  simp only [unionKeys, hfil, List.append_nil]

theorem noNullList_iff (xs : List JValue) :
    noNullList xs = true ↔ ∀ x ∈ xs, noNull x = true := by
  induction xs with
  | nil => simp [noNullList]
  | cons x rest ih => simp [noNullList, ih]

theorem noNullDict_iff (kvs : List (String × JValue)) :
    noNullDict kvs = true ↔ ∀ p ∈ kvs, noNull p.2 = true := by
  induction kvs with
  | nil => simp [noNullDict]
  | cons p rest ih =>
    obtain ⟨k, v⟩ := p
    simp [noNullDict, ih]

theorem wfList_iff (xs : List JValue) :
    wfList xs = true ↔ ∀ x ∈ xs, wf x = true := by
  induction xs with
  | nil => simp [wfList]
  | cons x rest ih => simp [wfList, ih]

theorem wfDict_iff (kvs : List (String × JValue)) :
    wfDict kvs = true ↔ ∀ p ∈ kvs, wf p.2 = true := by
  induction kvs with
  | nil => simp [wfDict]
  | cons p rest ih =>
    obtain ⟨k, v⟩ := p
    simp [wfDict, ih]

theorem noReservedList_iff (xs : List JValue) :
    noReservedList xs = true ↔ ∀ x ∈ xs, noReserved x = true := by
  induction xs with
  | nil => simp [noReservedList]
  | cons x rest ih => simp [noReservedList, ih]

theorem noReservedDict_iff (kvs : List (String × JValue)) :
    noReservedDict kvs = true ↔ ∀ p ∈ kvs, noReserved p.2 = true := by
  induction kvs with
  | nil => simp [noReservedDict]
  | cons p rest ih =>
    obtain ⟨k, v⟩ := p
    simp [noReservedDict, ih]

theorem noMarkerInList_iff (xs : List JValue) :
    noMarkerInList xs = true ↔ ∀ x ∈ xs, noMarkerIn x = true := by
  induction xs with
  | nil => simp [noMarkerInList]
  | cons x rest ih => simp [noMarkerInList, ih]

theorem noMarkerInDict_iff (kvs : List (String × JValue)) :
    noMarkerInDict kvs = true ↔ ∀ p ∈ kvs, noMarkerIn p.2 = true := by
  induction kvs with
  | nil => simp [noMarkerInDict]
  | cons p rest ih =>
    obtain ⟨k, v⟩ := p
    simp [noMarkerInDict, ih]

theorem noMarkerIn_of_noReserved : ∀ v : JValue, noReserved v = true → noMarkerIn v = true
  | .jnull, _ => by simp [noMarkerIn]
  | .jbool b, _ => by simp [noMarkerIn]
  | .jint n, _ => by simp [noMarkerIn]
  | .jfloat q, _ => by simp [noMarkerIn]
  | .jstr s, _ => by simp [noMarkerIn]
  | .jlist xs, h => by
    simp only [noReserved, noReservedList_iff] at h
    simp only [noMarkerIn, noMarkerInList_iff]
    intro x hx
    exact noMarkerIn_of_noReserved x (h x hx)
  | .jdict kvs, h => by
    simp only [noReserved, Bool.and_eq_true, Bool.not_eq_eq_eq_not, Bool.not_true,
      noReservedDict_iff] at h
    obtain ⟨⟨hA, hB⟩, hD⟩ := h
    simp only [noMarkerIn, Bool.and_eq_true, Bool.not_eq_eq_eq_not, Bool.not_true,
      Bool.or_eq_false_iff, noMarkerInDict_iff]
    exact ⟨⟨hB, hA⟩, fun p hp => noMarkerIn_of_noReserved p.2 (hD p hp)⟩
termination_by v => sizeOf v
decreasing_by
  · have := List.sizeOf_lt_of_mem hx
    simp
    omega
  · have := List.sizeOf_lt_of_mem hp
    obtain ⟨k, v2⟩ := p
    simp at this ⊢
    omega

theorem diffList_self_of (xs : List JValue) (h : ∀ v ∈ xs, difference v v = v) :
    diffList xs xs = xs := by
  induction xs with
  | nil => simp [diffList]
  | cons x rest ih =>
    simp only [diffList, List.cons.injEq]
    exact ⟨h x (List.mem_cons_self x rest), ih (fun v hv => h v (List.mem_cons_of_mem _ hv))⟩

theorem diffDict_self_of (kvs : List (String × JValue)) (hnd : nodupKeys kvs = true)
    (h : ∀ p ∈ kvs, difference p.2 p.2 = p.2) :
    diffDict (keys kvs) kvs kvs = kvs := by
  rw [diffDict_eq_map]
  have hcongr : ∀ key ∈ keys kvs,
      (fun k => (k, difference (dget kvs k) (dget kvs k))) key =
        (fun k => (k, dget kvs k)) key := by
    intro key hkey
    have hmem := dget_mem kvs key hkey
    simp only
    rw [h (key, dget kvs key) hmem]
  rw [List.map_congr_left hcongr, keys_map_dget kvs hnd]

/-- `difference(x, x)` is the identity on values without `None`
(mappings well-formed): reflexivity of the diff away from nulls. -/
theorem difference_self : ∀ x : JValue, noNull x = true → wf x = true → difference x x = x
  | .jnull, hn, _ => by simp [noNull] at hn
  | .jbool b, _, _ => by simp [difference]
  | .jint n, _, _ => by simp [difference]
  | .jfloat q, _, _ => by simp [difference]
  | .jstr s, _, _ => by simp [difference]
  | .jlist xs, hn, hw => by
    simp only [noNull, noNullList_iff] at hn
    simp only [wf, wfList_iff] at hw
    have hall : ∀ v ∈ xs, difference v v = v := by
      intro v hv
      exact difference_self v (hn v hv) (hw v hv)
    have hstep : difference (JValue.jlist xs) (JValue.jlist xs) =
        JValue.jlist (diffList xs xs) := by
      simp [difference]
    rw [hstep, diffList_self_of xs hall]
  | .jdict kvs, hn, hw => by
    simp only [noNull, noNullDict_iff] at hn
    simp only [wf, Bool.and_eq_true, wfDict_iff] at hw
    have hall : ∀ p ∈ kvs, difference p.2 p.2 = p.2 := by
      intro p hp
      exact difference_self p.2 (hn p hp) (hw.2 p hp)
    have hstep : difference (JValue.jdict kvs) (JValue.jdict kvs) =
        JValue.jdict (diffDict (unionKeys kvs kvs) kvs kvs) := by
      simp [difference]
    rw [hstep, unionKeys_self, diffDict_self_of kvs hw.1 hall]
termination_by x => sizeOf x
decreasing_by
  · have := List.sizeOf_lt_of_mem hv
    simp
    omega
  · have := List.sizeOf_lt_of_mem hp
    obtain ⟨k, v2⟩ := p
    simp at this ⊢
    omega

theorem count_eq_one_of_nodup_mem {α : Type} [BEq α] [LawfulBEq α] {l : List α} {a : α}
    (h1 : l.Nodup) (h2 : a ∈ l) : l.count a = 1 := by
  induction l with
  | nil => simp at h2
  | cons b rest ih =>
    rw [List.count_cons]
    rcases List.mem_cons.mp h2 with rfl | hmem
    · have hnotin : a ∉ rest := (List.nodup_cons.mp h1).1
      simp [List.count_eq_zero.mpr hnotin]
    · have hne : b ≠ a := by
        rintro rfl
        exact (List.nodup_cons.mp h1).1 hmem
      simp [ih (List.nodup_cons.mp h1).2 hmem, hne]

theorem digitChar_inj_lt : ∀ d1 < 10, ∀ d2 < 10, Nat.digitChar d1 = Nat.digitChar d2 → d1 = d2 := by
  decide

theorem digitChar_eq_zero_char : ∀ d < 10, Nat.digitChar d = '0' → d = 0 := by
  decide

theorem map_digitChar_inj :
    ∀ l1 l2 : List ℕ, (∀ d ∈ l1, d < 10) → (∀ d ∈ l2, d < 10) →
      l1.map Nat.digitChar = l2.map Nat.digitChar → l1 = l2
  | [], [], _, _, _ => rfl
  | [], _ :: _, _, _, h => by simp at h
  | _ :: _, [], _, _, h => by simp at h
  | d1 :: t1, d2 :: t2, h1, h2, h => by
    simp only [List.map_cons, List.cons.injEq] at h
    have hd := digitChar_inj_lt d1 (h1 d1 (by simp)) d2 (h2 d2 (by simp)) h.1
    have ht := map_digitChar_inj t1 t2 (fun d hd2 => h1 d (by simp [hd2]))
      (fun d hd2 => h2 d (by simp [hd2])) h.2
    rw [hd, ht]

theorem natStr_ne_zero_str (n : ℕ) (hn : n ≠ 0) : natStr n ≠ "0" := by
  intro h
  apply hn
  rw [natStr, if_neg hn] at h
  have hdata := congrArg String.data h
  have hz : ("0" : String).data = ['0'] := rfl
  rw [hz] at hdata
  have hlen := congrArg List.length hdata
  simp only [List.asString] at hdata
  simp only [List.asString, List.length_map, List.length_reverse, List.length_cons,
    List.length_nil] at hlen
  obtain ⟨d, hd⟩ := List.length_eq_one.mp hlen
  rw [hd] at hdata
  simp only [List.reverse_cons, List.reverse_nil, List.nil_append, List.map_cons, List.map_nil,
    List.cons.injEq, and_true] at hdata
  have hdlt : d < 10 := Nat.digits_lt_base (by norm_num) (by rw [hd]; simp)
  have hd0 := digitChar_eq_zero_char d hdlt hdata
  have := Nat.ofDigits_digits 10 n
  rw [hd, hd0] at this
  simpa [Nat.ofDigits] using this.symm

theorem natStr_inj (m n : ℕ) (h : natStr m = natStr n) : m = n := by
  by_cases hm : m = 0
  · by_cases hn : n = 0
    · rw [hm, hn]
    · exfalso
      subst hm
      rw [show natStr 0 = "0" from rfl] at h
      exact natStr_ne_zero_str n hn h.symm
  · by_cases hn : n = 0
    · exfalso
      subst hn
      rw [show natStr 0 = "0" from rfl] at h
      exact natStr_ne_zero_str m hm h
    · rw [natStr, if_neg hm, natStr, if_neg hn] at h
      have hdata := congrArg String.data h
      simp only [List.asString] at hdata
      have hmaps := List.reverse_injective
        (map_digitChar_inj _ _
          (fun d hd => Nat.digits_lt_base (by norm_num) (List.mem_reverse.mp hd))
          (fun d hd => Nat.digits_lt_base (by norm_num) (List.mem_reverse.mp hd)) hdata)
      calc m = Nat.ofDigits 10 (Nat.digits 10 m) := (Nat.ofDigits_digits 10 m).symm
        _ = Nat.ofDigits 10 (Nat.digits 10 n) := by rw [hmaps]
        _ = n := Nat.ofDigits_digits 10 n

theorem rowPaths_append (r1 r2 : List (List String × JValue × JValue)) :
    rowPaths (r1 ++ r2) = rowPaths r1 ++ rowPaths r2 := by
  simp [rowPaths]

mutual

/-- The breadcrumbs of the rows emitted by the traversal are exactly the
marker paths of the node, each prefixed by the entry key stack. -/
theorem rowPaths_list_differences : ∀ (d : JValue) (ks : List String),
    rowPaths (list_differences d ks) = (markerPaths d).map (fun p => ks ++ p)
  | .jnull, ks => by simp [list_differences, markerPaths, rowPaths]
  | .jbool b, ks => by simp [list_differences, markerPaths, rowPaths]
  | .jint n, ks => by simp [list_differences, markerPaths, rowPaths]
  | .jfloat q, ks => by simp [list_differences, markerPaths, rowPaths]
  | .jstr s, ks => by simp [list_differences, markerPaths, rowPaths]
  | .jdict kvs, ks => by
    cases hm : (hasKey kvs B_SIDE || hasKey kvs A_SIDE) with
    | true => simp [list_differences, markerPaths, hm, rowPaths]
    | false =>
      simp only [list_differences, markerPaths, hm, Bool.false_eq_true, if_false]
      exact rowPaths_listDiffEntries kvs ks
  | .jlist xs, ks => by
    simp only [list_differences, markerPaths]
    exact rowPaths_listDiffItems xs 0 ks
termination_by d _ => sizeOf d
decreasing_by
  all_goals simp <;> omega

theorem rowPaths_listDiffEntries : ∀ (kvs : List (String × JValue)) (ks : List String),
    rowPaths (listDiffEntries kvs ks) = (markerPathsEntries kvs).map (fun p => ks ++ p)
  | [], ks => by simp [listDiffEntries, markerPathsEntries, rowPaths]
  | (k, v) :: rest, ks => by
    simp only [listDiffEntries, markerPathsEntries]
    rw [rowPaths_append, rowPaths_list_differences v (ks ++ [k]),
      rowPaths_listDiffEntries rest ks]
    simp [List.map_map, Function.comp, List.append_assoc]
termination_by kvs _ => sizeOf kvs
decreasing_by
  all_goals simp <;> omega

theorem rowPaths_listDiffItems : ∀ (xs : List JValue) (i : ℕ) (ks : List String),
    rowPaths (listDiffItems xs i ks) = (markerPathsItems xs i).map (fun p => ks ++ p)
  | [], i, ks => by simp [listDiffItems, markerPathsItems, rowPaths]
  | v :: rest, i, ks => by
    simp only [listDiffItems, markerPathsItems]
    rw [rowPaths_append, rowPaths_list_differences v (ks ++ [listSeg i]),
      rowPaths_listDiffItems rest (i + 1) ks]
    simp [List.map_map, Function.comp, List.append_assoc]
termination_by xs _ _ => sizeOf xs
decreasing_by
  all_goals simp <;> omega

end

theorem mem_markerPathsEntries (kvs : List (String × JValue)) (p : List String) :
    p ∈ markerPathsEntries kvs ↔
      ∃ k v q, (k, v) ∈ kvs ∧ p = k :: q ∧ q ∈ markerPaths v := by
  induction kvs with
  | nil => simp [markerPathsEntries]
  | cons pr rest ih =>
    obtain ⟨k, v⟩ := pr
    simp only [markerPathsEntries, List.mem_append, List.mem_map]
    rw [ih]
    constructor
    · rintro (⟨q, hq, rfl⟩ | ⟨k2, v2, q, hmem, rfl, hq⟩)
      · exact ⟨k, v, q, by simp, rfl, hq⟩
      · exact ⟨k2, v2, q, by simp [hmem], rfl, hq⟩
    · rintro ⟨k2, v2, q, hmem, rfl, hq⟩
      rcases List.mem_cons.mp hmem with heq | hmem2
      · rw [Prod.mk.injEq] at heq
        obtain ⟨rfl, rfl⟩ := heq
        exact Or.inl ⟨q, hq, rfl⟩
      · exact Or.inr ⟨k2, v2, q, hmem2, rfl, hq⟩

theorem mem_markerPathsItems (xs : List JValue) :
    ∀ (i : ℕ) (p : List String),
      p ∈ markerPathsItems xs i ↔
        ∃ j v q, xs.get? j = some v ∧ p = listSeg (i + j) :: q ∧ q ∈ markerPaths v := by
  induction xs with
  | nil =>
    intro i p
    simp [markerPathsItems]
  | cons v rest ih =>
    intro i p
    simp only [markerPathsItems, List.mem_append, List.mem_map]
    rw [ih (i + 1)]
    constructor
    · rintro (⟨q, hq, rfl⟩ | ⟨j, w, q, hget, rfl, hq⟩)
      · exact ⟨0, v, q, rfl, by simp, hq⟩
      · refine ⟨j + 1, w, q, by simpa using hget, ?_, hq⟩
        rw [show i + (j + 1) = i + 1 + j by omega]
    · rintro ⟨j, w, q, hget, rfl, hq⟩
      cases j with
      | zero =>
        refine Or.inl ⟨q, ?_, by simp⟩
        have hw : v = w := by
          simpa using hget
        rw [hw]
        exact hq
      | succ j2 =>
        refine Or.inr ⟨j2, w, q, by simpa using hget, ?_, hq⟩
        rw [show i + 1 + j2 = i + (j2 + 1) by omega]

theorem mem_markerPaths : ∀ (d : JValue) (p : List String), p ∈ markerPaths d ↔ MarkerAt d p
  | .jnull, p => by
    constructor
    · intro h
      simp [markerPaths] at h
    · intro h
      cases h
  | .jbool b, p => by
    constructor
    · intro h
      simp [markerPaths] at h
    · intro h
      cases h
  | .jint n, p => by
    constructor
    · intro h
      simp [markerPaths] at h
    · intro h
      cases h
  | .jfloat q, p => by
    constructor
    · intro h
      simp [markerPaths] at h
    · intro h
      cases h
  | .jstr s, p => by
    constructor
    · intro h
      simp [markerPaths] at h
    · intro h
      cases h
  | .jdict kvs, p => by
    cases hm : (hasKey kvs B_SIDE || hasKey kvs A_SIDE) with
    | true =>
      simp only [markerPaths, hm, if_true, List.mem_singleton]
      constructor
      · rintro rfl
        exact MarkerAt.here kvs hm
      · intro h
        cases h with
        | here _ _ => rfl
        | inDict _ _ _ _ hm2 _ _ =>
          rw [hm] at hm2
          exact absurd hm2 (by simp)
    | false =>
      have hrec : ∀ pr ∈ kvs, ∀ q : List String,
          q ∈ markerPaths pr.2 ↔ MarkerAt pr.2 q := by
        intro pr hpr q
        exact mem_markerPaths pr.2 q
      simp only [markerPaths, hm, Bool.false_eq_true, if_false]
      rw [mem_markerPathsEntries]
      constructor
      · rintro ⟨k, v, q, hmem, rfl, hq⟩
        exact MarkerAt.inDict kvs k v q hm hmem ((hrec (k, v) hmem q).mp hq)
      · intro h
        cases h with
        | here _ hm2 =>
          rw [hm] at hm2
          exact absurd hm2 (by simp)
        | inDict _ k v q hm2 hmem hq =>
          exact ⟨k, v, q, hmem, rfl, (hrec (k, v) hmem q).mpr hq⟩
  | .jlist xs, p => by
    have hrec : ∀ v ∈ xs, ∀ q : List String,
        q ∈ markerPaths v ↔ MarkerAt v q := by
      intro v hv q
      exact mem_markerPaths v q
    simp only [markerPaths]
    rw [mem_markerPathsItems xs 0 p]
    constructor
    · rintro ⟨j, v, q, hget, rfl, hq⟩
      rw [show (0 + j) = j by omega]
      exact MarkerAt.inList xs j v q hget ((hrec v (List.get?_mem hget) q).mp hq)
    · intro h
      cases h with
      | inList _ i v q hget hq =>
        exact ⟨i, v, q, hget, by simp, (hrec v (List.get?_mem hget) q).mpr hq⟩
termination_by d _ => sizeOf d
decreasing_by
  · have := List.sizeOf_lt_of_mem hpr
    obtain ⟨k2, v2⟩ := pr
    simp at this ⊢
    omega
  · have := List.sizeOf_lt_of_mem hv
    simp
    omega

theorem listSeg_inj (i j : ℕ) (h : listSeg i = listSeg j) : i = j := by
  apply natStr_inj
  have hdata := congrArg String.data h
  simp only [listSeg, String.data_append] at hdata
  rw [List.append_assoc, List.append_assoc] at hdata
  have h2 := List.append_cancel_left hdata
  have h3 := List.append_cancel_right h2
  exact String.ext h3

theorem wf_mem_dict (kvs : List (String × JValue)) (h : wf (JValue.jdict kvs) = true) :
    ∀ p ∈ kvs, wf p.2 = true := by
  simp only [wf, Bool.and_eq_true, wfDict_iff] at h
  exact h.2

theorem wf_nodupKeys (kvs : List (String × JValue)) (h : wf (JValue.jdict kvs) = true) :
    nodupKeys kvs = true := by
  simp only [wf, Bool.and_eq_true] at h
  exact h.1

theorem wf_mem_list (xs : List JValue) (h : wf (JValue.jlist xs) = true) :
    ∀ v ∈ xs, wf v = true := by
  simp only [wf, wfList_iff] at h
  exact h

theorem nodup_markerPathsEntries (kvs : List (String × JValue)) (hnd : nodupKeys kvs = true)
    (hrec : ∀ p ∈ kvs, (markerPaths p.2).Nodup) : (markerPathsEntries kvs).Nodup := by
  induction kvs with
  | nil => simp [markerPathsEntries]
  | cons pr rest ih =>
    obtain ⟨k, v⟩ := pr
    simp only [nodupKeys, Bool.and_eq_true, Bool.not_eq_eq_eq_not, Bool.not_true] at hnd
    simp only [markerPathsEntries]
    rw [List.nodup_append]
    refine ⟨?_, ?_, ?_⟩
    · exact (hrec (k, v) (by simp)).map (fun a b hab => by simpa using hab)
    · exact ih hnd.2 (fun p hp => hrec p (by simp [hp]))
    · intro x hx1 hx2
      obtain ⟨q, hq, rfl⟩ := List.mem_map.mp hx1
      obtain ⟨k2, v2, q2, hmem2, heq, hq2⟩ := (mem_markerPathsEntries rest (k :: q)).mp hx2
      have hk2 : k2 ∈ keys rest := by
        simp only [keys, List.mem_map]
        exact ⟨(k2, v2), hmem2, rfl⟩
      have hkk : k = k2 := by
        injection heq with h1 h2
      rw [← hkk] at hk2
      exact absurd hk2 ((hasKey_eq_false_iff rest k).mp hnd.1)

theorem nodup_markerPathsItems (xs : List JValue) :
    ∀ i : ℕ, (∀ v ∈ xs, (markerPaths v).Nodup) → (markerPathsItems xs i).Nodup := by
  induction xs with
  | nil =>
    intro i _
    simp [markerPathsItems]
  | cons v rest ih =>
    intro i hrec
    simp only [markerPathsItems]
    rw [List.nodup_append]
    refine ⟨(hrec v (by simp)).map (fun a b hab => by simpa using hab),
      ih (i + 1) (fun w hw => hrec w (by simp [hw])), ?_⟩
    intro x hx1 hx2
    obtain ⟨q, hq, rfl⟩ := List.mem_map.mp hx1
    obtain ⟨j, w, q2, hget, heq, hq2⟩ :=
      (mem_markerPathsItems rest (i + 1) (listSeg i :: q)).mp hx2
    have hseg : listSeg i = listSeg (i + 1 + j) := by
      injection heq with h1 h2
    have := listSeg_inj _ _ hseg
    omega

theorem nodup_markerPaths : ∀ d : JValue, wf d = true → (markerPaths d).Nodup
  | .jnull, _ => by simp [markerPaths]
  | .jbool b, _ => by simp [markerPaths]
  | .jint n, _ => by simp [markerPaths]
  | .jfloat q, _ => by simp [markerPaths]
  | .jstr s, _ => by simp [markerPaths]
  | .jdict kvs, h => by
    cases hm : (hasKey kvs B_SIDE || hasKey kvs A_SIDE) with
    | true => simp [markerPaths, hm]
    | false =>
      simp only [markerPaths, hm, Bool.false_eq_true, if_false]
      apply nodup_markerPathsEntries kvs (wf_nodupKeys kvs h)
      intro p hp
      exact nodup_markerPaths p.2 (wf_mem_dict kvs h p hp)
  | .jlist xs, h => by
    simp only [markerPaths]
    apply nodup_markerPathsItems xs 0
    intro v hv
    exact nodup_markerPaths v (wf_mem_list xs h v hv)
termination_by d => sizeOf d
decreasing_by
  · have := List.sizeOf_lt_of_mem hp
    obtain ⟨k2, v2⟩ := p
    simp at this ⊢
    omega
  · have := List.sizeOf_lt_of_mem hv
    simp
    omega

/-- Marker nodes are never nested along a breadcrumb: once the traversal
hits a marker it stops, so no strictly longer marker path extends it. -/
theorem markerAt_nested : ∀ (d : JValue) (p q : List String), wf d = true →
    MarkerAt d p → MarkerAt d (p ++ q) → q = []
  | d, p, q, hw, h1, h2 => by
    cases h1 with
    | here kvs hm =>
      cases h2 with
      | here _ _ => rfl
      | inDict _ _ _ _ hm2 _ _ =>
        rw [hm] at hm2
        exact absurd hm2 (by simp)
    | inDict kvs k v p0 hm hmem hp =>
      cases h2 with
      | inDict _ k2 v2 p2 hm2 hmem2 hp2 =>
        have hnd := wf_nodupKeys kvs hw
        have hv2 : v2 = v := by
          have e1 := dget_eq_of_mem kvs k v hnd hmem
          have e2 := dget_eq_of_mem kvs k v2 hnd hmem2
          rw [e1] at e2
          exact e2.symm
        rw [hv2] at hp2
        exact markerAt_nested v p0 q (wf_mem_dict kvs hw (k, v) hmem) hp hp2
    | inList xs i v p0 hget hp =>
      generalize hseg : listSeg i = s at h2
      cases h2 with
      | inList _ i2 v2 p2 hget2 hp2 =>
        have hi : i = i2 := listSeg_inj i i2 hseg
        rw [← hi] at hget2
        rw [hget] at hget2
        injection hget2 with hv2
        exact markerAt_nested v p0 q (wf_mem_list xs hw v (List.get?_mem hget)) hp
          (by rw [hv2]; exact hp2)
termination_by d _ _ _ => sizeOf d
decreasing_by
  · have := List.sizeOf_lt_of_mem hmem
    simp_all <;> omega
  · have := List.sizeOf_lt_of_mem (List.get?_mem hget)
    simp_all <;> omega

theorem wf_jnull : wf JValue.jnull = true := by simp [wf]

theorem wf_markerA (a : JValue) (ha : wf a = true) :
    wf (JValue.jdict [(A_SIDE, a)]) = true := by
  simp [wf, nodupKeys, hasKey, wfDict, ha]

theorem wf_markerB (b : JValue) (hb : wf b = true) :
    wf (JValue.jdict [(B_SIDE, b)]) = true := by
  simp [wf, nodupKeys, hasKey, wfDict, hb]

theorem wf_markerAB (a b : JValue) (ha : wf a = true) (hb : wf b = true) :
    wf (JValue.jdict [(A_SIDE, a), (B_SIDE, b)]) = true := by
  simp [wf, nodupKeys, hasKey, wfDict, ha, hb, A_SIDE, B_SIDE]

theorem keys_diffDict (ks : List String) (da db : List (String × JValue)) :
    keys (diffDict ks da db) = ks := by
  rw [diffDict_eq_map]
  simp only [keys, List.map_map]
  have hid : (Prod.fst ∘ fun k => (k, difference (dget da k) (dget db k))) = id := rfl
  rw [hid, List.map_id]

theorem nodup_unionKeys (da db : List (String × JValue))
    (h1 : nodupKeys da = true) (h2 : nodupKeys db = true) :
    (unionKeys da db).Nodup := by
  rw [nodupKeys_iff] at h1 h2
  rw [unionKeys, List.nodup_append]
  refine ⟨h1, h2.filter _, ?_⟩
  intro k hk1 hk2
  obtain ⟨hmem, hcond⟩ := List.mem_filter.mp hk2
  have hfa : hasKey da k = false := by simpa using hcond
  exact absurd hk1 ((hasKey_eq_false_iff da k).mp hfa)

theorem dget_eq_jnull_of_not_mem (kvs : List (String × JValue)) (key : String)
    (h : key ∉ keys kvs) : dget kvs key = JValue.jnull := by
  induction kvs with
  | nil => simp [dget]
  | cons p rest ih =>
    obtain ⟨k, v⟩ := p
    simp only [keys_cons, List.mem_cons, not_or] at h
    have hne : ¬ k = key := fun hc => h.1 hc.symm
    simp only [dget, if_neg hne]
    exact ih h.2

theorem wf_dget (kvs : List (String × JValue)) (key : String)
    (h : wf (JValue.jdict kvs) = true) : wf (dget kvs key) = true := by
  by_cases hk : key ∈ keys kvs
  · exact wf_mem_dict kvs h (key, dget kvs key) (dget_mem kvs key hk)
  · rw [dget_eq_jnull_of_not_mem kvs key hk]
    exact wf_jnull

theorem mem_zipLongest_cases :
    ∀ (la lb : List JValue) (p : JValue × JValue), p ∈ zipLongest la lb →
      (p.1 ∈ la ∨ p.1 = JValue.jnull) ∧ (p.2 ∈ lb ∨ p.2 = JValue.jnull)
  | [], [], p, h => by simp [zipLongest] at h
  | [], y :: ys, p, h => by
    simp only [zipLongest, List.mem_cons] at h
    rcases h with rfl | h
    · simp
    · have := mem_zipLongest_cases [] ys p h
      tauto
  | x :: xs, [], p, h => by
    simp only [zipLongest, List.mem_cons] at h
    rcases h with rfl | h
    · simp
    · have := mem_zipLongest_cases xs [] p h
      tauto
  | x :: xs, y :: ys, p, h => by
    simp only [zipLongest, List.mem_cons] at h
    rcases h with rfl | h
    · simp
    · have := mem_zipLongest_cases xs ys p h
      tauto

/-- `difference` preserves well-formedness: every mapping it builds has
unique keys (marker mappings, key unions, and recursively merged
children). -/
theorem difference_wf (a b : JValue) (ha : wf a = true) (hb : wf b = true) :
    wf (difference a b) = true := by
  by_cases hbn : b = JValue.jnull
  · have hd : difference a b = JValue.jdict [(A_SIDE, a)] := by
      simp [difference, hbn]
    rw [hd]
    exact wf_markerA a ha
  by_cases han : a = JValue.jnull
  · have hd : difference a b = JValue.jdict [(B_SIDE, b)] := by
      simp [difference, han, hbn]
    rw [hd]
    exact wf_markerB b hb
  by_cases hpt : ptype a = ptype b
  · cases a with
    | jnull => exact absurd rfl han
    | jbool ab =>
      cases b with
      | jnull => exact absurd rfl hbn
      | jint bn => simp [ptype] at hpt
      | jfloat bq => simp [ptype] at hpt
      | jstr bs => simp [ptype] at hpt
      | jlist lb => simp [ptype] at hpt
      | jdict db => simp [ptype] at hpt
      | jbool bb =>
        have hd : difference (JValue.jbool ab) (JValue.jbool bb) =
            if ab = bb then JValue.jbool ab
            else JValue.jdict [(A_SIDE, JValue.jbool ab), (B_SIDE, JValue.jbool bb)] := by
          simp [difference, ptype]
        rw [hd]
        split
        · exact ha
        · exact wf_markerAB _ _ ha hb
    | jint an =>
      cases b with
      | jnull => exact absurd rfl hbn
      | jbool bb => simp [ptype] at hpt
      | jfloat bq => simp [ptype] at hpt
      | jstr bs => simp [ptype] at hpt
      | jlist lb => simp [ptype] at hpt
      | jdict db => simp [ptype] at hpt
      | jint bn =>
        have hd : difference (JValue.jint an) (JValue.jint bn) =
            if an = bn then JValue.jint an
            else JValue.jdict [(A_SIDE, JValue.jint an), (B_SIDE, JValue.jint bn)] := by
          simp [difference, ptype]
        rw [hd]
        split
        · exact ha
        · exact wf_markerAB _ _ ha hb
    | jfloat aq =>
      cases b with
      | jnull => exact absurd rfl hbn
      | jbool bb => simp [ptype] at hpt
      | jint bn => simp [ptype] at hpt
      | jstr bs => simp [ptype] at hpt
      | jlist lb => simp [ptype] at hpt
      | jdict db => simp [ptype] at hpt
      | jfloat bq =>
        have hd : difference (JValue.jfloat aq) (JValue.jfloat bq) =
            if aq = bq then JValue.jfloat aq
            else JValue.jdict [(A_SIDE, JValue.jfloat aq), (B_SIDE, JValue.jfloat bq)] := by
          simp [difference, ptype]
        rw [hd]
        split
        · exact ha
        · exact wf_markerAB _ _ ha hb
    | jstr as2 =>
      cases b with
      | jnull => exact absurd rfl hbn
      | jbool bb => simp [ptype] at hpt
      | jint bn => simp [ptype] at hpt
      | jfloat bq => simp [ptype] at hpt
      | jlist lb => simp [ptype] at hpt
      | jdict db => simp [ptype] at hpt
      | jstr bs =>
        have hd : difference (JValue.jstr as2) (JValue.jstr bs) =
            if as2 = bs then JValue.jstr as2
            else JValue.jdict [(A_SIDE, JValue.jstr as2), (B_SIDE, JValue.jstr bs)] := by
          simp [difference, ptype]
        rw [hd]
        split
        · exact ha
        · exact wf_markerAB _ _ ha hb
    | jlist la =>
      cases b with
      | jnull => exact absurd rfl hbn
      | jbool bb => simp [ptype] at hpt
      | jint bn => simp [ptype] at hpt
      | jfloat bq => simp [ptype] at hpt
      | jstr bs => simp [ptype] at hpt
      | jdict db => simp [ptype] at hpt
      | jlist lb =>
        have hrec : ∀ p ∈ zipLongest la lb, wf (difference p.1 p.2) = true := by
          intro p hp
          obtain ⟨hp1, hp2⟩ := mem_zipLongest_cases la lb p hp
          have hw1 : wf p.1 = true := by
            rcases hp1 with hmem | hnull
            · exact wf_mem_list la ha p.1 hmem
            · rw [hnull]
              exact wf_jnull
          have hw2 : wf p.2 = true := by
            rcases hp2 with hmem | hnull
            · exact wf_mem_list lb hb p.2 hmem
            · rw [hnull]
              exact wf_jnull
          exact difference_wf p.1 p.2 hw1 hw2
        have hd : difference (JValue.jlist la) (JValue.jlist lb) =
            JValue.jlist (diffList la lb) := by
          simp [difference, ptype]
        rw [hd]
        simp only [wf, wfList_iff]
        intro x hx
        rw [diffList_eq_map] at hx
        obtain ⟨p, hp, rfl⟩ := List.mem_map.mp hx
        exact hrec p hp
    | jdict da =>
      cases b with
      | jnull => exact absurd rfl hbn
      | jbool bb => simp [ptype] at hpt
      | jint bn => simp [ptype] at hpt
      | jfloat bq => simp [ptype] at hpt
      | jstr bs => simp [ptype] at hpt
      | jlist lb => simp [ptype] at hpt
      | jdict db =>
        have hrec : ∀ k : String, wf (difference (dget da k) (dget db k)) = true := by
          intro k
          exact difference_wf (dget da k) (dget db k) (wf_dget da k ha) (wf_dget db k hb)
        have hd : difference (JValue.jdict da) (JValue.jdict db) =
            JValue.jdict (diffDict (unionKeys da db) da db) := by
          simp [difference, ptype]
        rw [hd]
        simp only [wf, Bool.and_eq_true]
        constructor
        · rw [nodupKeys_iff, keys_diffDict]
          exact nodup_unionKeys da db (wf_nodupKeys da ha) (wf_nodupKeys db hb)
        · rw [wfDict_iff]
          intro p hp
          rw [diffDict_eq_map] at hp
          obtain ⟨k, hk, rfl⟩ := List.mem_map.mp hp
          exact hrec k
  · have hd : difference a b = JValue.jdict [(A_SIDE, a), (B_SIDE, b)] := by
      rw [difference.eq_def]
      rw [if_neg hbn, if_neg han, if_pos hpt]
    rw [hd]
    exact wf_markerAB a b ha hb
termination_by sizeOf a + sizeOf b
decreasing_by
  · have := sizeOf_zipLongest la lb p hp
    simp_all <;> omega
  · have h1 := sizeOf_dget da k
    have h2 := sizeOf_dget db k
    simp_all <;> omega

/-- C1 counterexample: at the JSON-like input `x = null`,
`difference(x, x)` does not return `x` unchanged — the `b_side is None`
clause fires first and wraps the null in an `A_SIDE` difference marker. -/
theorem jsondiff_c1_counterexample :
    difference JValue.jnull JValue.jnull = JValue.jdict [(A_SIDE, JValue.jnull)] ∧
    difference JValue.jnull JValue.jnull ≠ JValue.jnull := by
  constructor
  · simp [difference]
  · simp [difference]

/-- C1 (amended): for every JSON-like value `x` whose mappings have
unique keys, which contains no null anywhere, and which contains no
reserved `A_SIDE`/`B_SIDE` keys, `difference(x, x)` returns `x`
unchanged with no difference-marker node anywhere in the result; if `x`
contains a null anywhere (e.g. `x = null` itself), the null/missing
clauses fire instead and produce a marker. -/
theorem jsondiff_c1_amended (x : JValue) (hn : noNull x = true) (hw : wf x = true)
    (hr : noReserved x = true) :
    difference x x = x ∧ noMarkerIn (difference x x) = true := by
  have h := difference_self x hn hw
  refine ⟨h, ?_⟩
  rw [h]
  exact noMarkerIn_of_noReserved x hr

theorem jsondiff_c1_witness :
    noNull (JValue.jdict [("a", JValue.jint 1),
      ("b", JValue.jlist [JValue.jstr "s", JValue.jbool true])]) = true ∧
    wf (JValue.jdict [("a", JValue.jint 1),
      ("b", JValue.jlist [JValue.jstr "s", JValue.jbool true])]) = true ∧
    noReserved (JValue.jdict [("a", JValue.jint 1),
      ("b", JValue.jlist [JValue.jstr "s", JValue.jbool true])]) = true ∧
    (difference (JValue.jdict [("a", JValue.jint 1),
        ("b", JValue.jlist [JValue.jstr "s", JValue.jbool true])])
      (JValue.jdict [("a", JValue.jint 1),
        ("b", JValue.jlist [JValue.jstr "s", JValue.jbool true])]) =
      JValue.jdict [("a", JValue.jint 1),
        ("b", JValue.jlist [JValue.jstr "s", JValue.jbool true])] ∧
    noMarkerIn (difference (JValue.jdict [("a", JValue.jint 1),
        ("b", JValue.jlist [JValue.jstr "s", JValue.jbool true])])
      (JValue.jdict [("a", JValue.jint 1),
        ("b", JValue.jlist [JValue.jstr "s", JValue.jbool true])])) = true) := by
  have h1 : noNull (JValue.jdict [("a", JValue.jint 1),
      ("b", JValue.jlist [JValue.jstr "s", JValue.jbool true])]) = true := by
    simp [noNull, noNullList, noNullDict]
  have h2 : wf (JValue.jdict [("a", JValue.jint 1),
      ("b", JValue.jlist [JValue.jstr "s", JValue.jbool true])]) = true := by
    simp [wf, wfList, wfDict, nodupKeys, hasKey]
  have h3 : noReserved (JValue.jdict [("a", JValue.jint 1),
      ("b", JValue.jlist [JValue.jstr "s", JValue.jbool true])]) = true := by
    simp [noReserved, noReservedList, noReservedDict, hasKey, A_SIDE, B_SIDE]
  exact ⟨h1, h2, h3, jsondiff_c1_amended _ h1 h2 h3⟩

/-- C2 counterexample: `difference(5, 5.0)` — an integer and a
floating-point number with equal numeric value — is a two-sided
difference marker, not the scalar unchanged: Python's `type(5) !=
type(5.0)`, so the kind-mismatch clause fires. -/
theorem jsondiff_c2_counterexample :
    difference (JValue.jint 5) (JValue.jfloat 5) =
      JValue.jdict [(A_SIDE, JValue.jint 5), (B_SIDE, JValue.jfloat 5)] ∧
    difference (JValue.jint 5) (JValue.jfloat 5) ≠ JValue.jint 5 := by
  constructor
  · simp [difference, ptype]
  · simp [difference, ptype]

/-- C2 (amended): `difference` treats an integer and a floating-point
number as values of differing runtime types, so any int/float pair —
even with equal numeric value — yields a marker with both `A_SIDE` and
`B_SIDE`; a string and a number likewise yield a two-sided marker
(e.g. `difference(5, "5")`). -/
theorem jsondiff_c2_amended (n : ℤ) (q : ℚ) (s : String) :
    difference (JValue.jint n) (JValue.jfloat q) =
      JValue.jdict [(A_SIDE, JValue.jint n), (B_SIDE, JValue.jfloat q)] ∧
    difference (JValue.jint n) (JValue.jstr s) =
      JValue.jdict [(A_SIDE, JValue.jint n), (B_SIDE, JValue.jstr s)] := by
  constructor
  · simp [difference, ptype]
  · simp [difference, ptype]

/-- C4: for inputs `a`, `b` with unique mapping keys and no reserved
`A_SIDE`/`B_SIDE` keys, the merged value `difference(a, b)` has a
difference-marker node at a breadcrumb `p` iff the flattening traversal
`list_differences` emits exactly one row with breadcrumb `p`; paths
without a marker get no row; and no row is ever emitted for a proper
descendant of a marker node. -/
theorem jsondiff_c4 (a b : JValue) (hwa : wf a = true) (hwb : wf b = true)
    (hra : noReserved a = true) (hrb : noReserved b = true) :
    (∀ p, MarkerAt (difference a b) p ↔
        (rowPaths (list_differences (difference a b) [])).count p = 1) ∧
    (∀ p, ¬ MarkerAt (difference a b) p →
        (rowPaths (list_differences (difference a b) [])).count p = 0) ∧
    (∀ p q, MarkerAt (difference a b) p → q ≠ [] →
        (rowPaths (list_differences (difference a b) [])).count (p ++ q) = 0) := by
  have hwd : wf (difference a b) = true := difference_wf a b hwa hwb
  have hrows : rowPaths (list_differences (difference a b) []) =
      markerPaths (difference a b) := by
    rw [rowPaths_list_differences]
    simp
  have hnd := nodup_markerPaths (difference a b) hwd
  refine ⟨?_, ?_, ?_⟩
  · intro p
    rw [hrows]
    constructor
    · intro hm
      exact count_eq_one_of_nodup_mem hnd ((mem_markerPaths _ p).mpr hm)
    · intro hc
      by_contra hnm
      have hout : p ∉ markerPaths (difference a b) :=
        fun hmem => hnm ((mem_markerPaths _ p).mp hmem)
      rw [List.count_eq_zero.mpr hout] at hc
      exact absurd hc (by norm_num)
  · intro p hnm
    rw [hrows]
    exact List.count_eq_zero.mpr (fun hmem => hnm ((mem_markerPaths _ p).mp hmem))
  · intro p q hm hq
    rw [hrows]
    apply List.count_eq_zero.mpr
    intro hmem
    exact hq (markerAt_nested (difference a b) p q hwd hm ((mem_markerPaths _ _).mp hmem))

theorem jsondiff_c4_witness :
    (rowPaths (list_differences (difference (JValue.jdict [("k", JValue.jint 1)])
      (JValue.jdict [("k", JValue.jint 2)])) [])).count ["k"] = 1 := by
  have h := (jsondiff_c4 (JValue.jdict [("k", JValue.jint 1)])
    (JValue.jdict [("k", JValue.jint 2)])
    (by simp [wf, wfDict, nodupKeys, hasKey])
    (by simp [wf, wfDict, nodupKeys, hasKey])
    (by simp [noReserved, noReservedDict, hasKey, A_SIDE, B_SIDE])
    (by simp [noReserved, noReservedDict, hasKey, A_SIDE, B_SIDE])).1 ["k"]
  apply h.mp
  have hd : difference (JValue.jdict [("k", JValue.jint 1)])
      (JValue.jdict [("k", JValue.jint 2)]) =
      JValue.jdict [("k", JValue.jdict [(A_SIDE, JValue.jint 1), (B_SIDE, JValue.jint 2)])] := by
    simp [difference, ptype, diffDict, diffList, unionKeys, keys, hasKey, dget, A_SIDE, B_SIDE]
  rw [hd]
  refine MarkerAt.inDict _ "k"
    (JValue.jdict [(A_SIDE, JValue.jint 1), (B_SIDE, JValue.jint 2)]) [] ?_ ?_ ?_
  · simp [hasKey, A_SIDE, B_SIDE]
  · simp
  · exact MarkerAt.here _ (by simp [hasKey, A_SIDE, B_SIDE])

end Jsondiff

namespace Skmeans

open Classical

noncomputable section

/-!
The second part embeds `skmeans.py`.  Feature vectors are `Fin F → ℝ`
(exact reals stand in for floats).  The numpy arrays `_records`,
`_medoids` and `_classes` are index functions; the fixed capacities
`max_records` and `max_k` bound the slices the methods touch.
`np.random.randn` is an external effect, so the state carries the
stream of draws (`rand`) with a cursor (`rand_pos`); each call of
`_random_angle` consumes the next draw.
-/

def sqnorm {F : ℕ} (v : Fin F → ℝ) : ℝ := ∑ i, v i ^ 2

def dot {F : ℕ} (v w : Fin F → ℝ) : ℝ := ∑ i, v i * w i

/-- `sklearn.preprocessing.normalize` on a single row with the default
l2 norm: divide by the Euclidean norm, leaving an all-zero row
unchanged (sklearn replaces a zero norm by 1 before dividing). -/
def pynormalize {F : ℕ} (v : Fin F → ℝ) : Fin F → ℝ :=
  if Real.sqrt (sqnorm v) = 0 then v else fun i => v i / Real.sqrt (sqnorm v)

structure IterativeSphericalKMeans (num_features max_k max_records : ℕ) where
  k : ℕ
  num_records : ℕ
  next_to_replace : ℕ
  records : ℕ → Fin num_features → ℝ
  medoids : ℕ → Fin num_features → ℝ
  classes : ℕ → ℕ
  rand : ℕ → Fin num_features → ℝ
  rand_pos : ℕ

/-- `_random_angle`: `normalize(np.abs(np.random.randn(num_features)))`
where the `randn` draw is the `t`-th element of the stream. -/
def _random_angle {F : ℕ} (rand : ℕ → Fin F → ℝ) (t : ℕ) : Fin F → ℝ :=
  pynormalize (fun i => |rand t i|)

/-- The clamp both `__init__` and `set_k` perform:
`if v > max_k: v = max_k elif v < 1: v = 1`. -/
def clampK (max_k : ℕ) (v : ℤ) : ℕ :=
  if v > (max_k : ℤ) then max_k else if v < 1 then 1 else v.toNat

/-- `__init__(initial_k, num_features, max_k, max_records)`: clamp `k`,
zero counters, `_medoids = np.zeros` with the first `k` rows freshly
randomized, `_classes = np.zeros`; `_records = np.empty` holds
arbitrary uninitialized contents (`garbage`). -/
def init (num_features max_k max_records : ℕ) (initial_k : ℤ)
    (rand : ℕ → Fin num_features → ℝ) (garbage : ℕ → Fin num_features → ℝ) :
    IterativeSphericalKMeans num_features max_k max_records :=
  { k := clampK max_k initial_k
    num_records := 0
    next_to_replace := 0
    records := garbage
    medoids := fun i => if i < clampK max_k initial_k then _random_angle rand i else 0
    classes := fun _ => 0
    rand := rand
    rand_pos := clampK max_k initial_k }

/-- `np.argmax` along the medoid axis for one record: the first index in
`[0, k)` attaining the maximum (a later index replaces the current best
only when strictly greater). -/
def npArgmax (f : ℕ → ℝ) (k : ℕ) : ℕ :=
  (List.range k).foldl (fun best i => if f best < f i then i else best) 0

/-- `iterate()`: classify every active record to the active medoid with
the largest dot product, then replace each active medoid by the
normalized sum of its assigned records, re-randomizing it when that
normalized sum is the zero vector.  Re-randomized medoids consume
stream draws in increasing index order. -/
def iterate {F K R : ℕ} (s : IterativeSphericalKMeans F K R) :
    IterativeSphericalKMeans F K R :=
  let cls : ℕ → ℕ := fun p =>
    if p < s.num_records then npArgmax (fun i => dot (s.records p) (s.medoids i)) s.k
    else s.classes p
  let csum : ℕ → Fin F → ℝ := fun i =>
    ∑ p ∈ Finset.range s.num_records, if cls p = i then s.records p else 0
  let m1 : ℕ → Fin F → ℝ := fun i => pynormalize (csum i)
  let zerosBefore : ℕ → ℕ := fun i => ((Finset.range i).filter (fun j => m1 j = 0)).card
  { s with
    classes := cls
    medoids := fun i =>
      if i < s.k then
        (if m1 i = 0 then _random_angle s.rand (s.rand_pos + zerosBefore i) else m1 i)
      else s.medoids i
    rand_pos := s.rand_pos + ((Finset.range s.k).filter (fun j => m1 j = 0)).card }

/-- `set_k(new_k)`: clamp into `[1, max_k]`; while increasing, assign a
fresh random angle to each newly activated medoid slot; while
decreasing, only the count shrinks. -/
def set_k {F K R : ℕ} (s : IterativeSphericalKMeans F K R) (new_k : ℤ) :
    IterativeSphericalKMeans F K R :=
  let nk := clampK K new_k
  { s with
    k := nk
    medoids := fun i =>
      if s.k ≤ i ∧ i < nk then _random_angle s.rand (s.rand_pos + (i - s.k))
      else s.medoids i
    rand_pos := s.rand_pos + (nk - s.k) }

/-- `shuffle()`: replace every active medoid with a fresh random angle. -/
def shuffle {F K R : ℕ} (s : IterativeSphericalKMeans F K R) :
    IterativeSphericalKMeans F K R :=
  { s with
    medoids := fun i => if i < s.k then _random_angle s.rand (s.rand_pos + i) else s.medoids i
    rand_pos := s.rand_pos + s.k }

/-- `add_record(record)`: normalize the input, write it at the cursor,
advance the cursor (wrapping at `max_records`), and grow the active
count until it reaches `max_records`. -/
def add_record {F K R : ℕ} (s : IterativeSphericalKMeans F K R) (record : Fin F → ℝ) :
    IterativeSphericalKMeans F K R :=
  { s with
    records := fun p => if p = s.next_to_replace then pynormalize record else s.records p
    next_to_replace := if s.next_to_replace + 1 ≥ R then 0 else s.next_to_replace + 1
    num_records := if s.num_records < R then s.num_records + 1 else s.num_records }

/-- `add_records(records)`: `add_record` for each item in order. -/
def add_records {F K R : ℕ} (s : IterativeSphericalKMeans F K R)
    (recs : List (Fin F → ℝ)) : IterativeSphericalKMeans F K R :=
  recs.foldl add_record s

theorem sqnorm_nonneg {F : ℕ} (v : Fin F → ℝ) : 0 ≤ sqnorm v :=
  Finset.sum_nonneg (fun i _ => sq_nonneg (v i))

theorem sqnorm_eq_zero_iff {F : ℕ} (v : Fin F → ℝ) : sqnorm v = 0 ↔ v = 0 := by
  rw [sqnorm, Finset.sum_eq_zero_iff_of_nonneg (fun i _ => sq_nonneg (v i))]
  constructor
  · intro h
    funext i
    have := h i (Finset.mem_univ i)
    exact (pow_eq_zero_iff (two_ne_zero)).mp this
  · intro h i _
    rw [h]
    simp

theorem sqnorm_pos_of_ne_zero {F : ℕ} (v : Fin F → ℝ) (h : v ≠ 0) : 0 < sqnorm v :=
  lt_of_le_of_ne (sqnorm_nonneg v) (fun hc => h ((sqnorm_eq_zero_iff v).mp hc.symm))

theorem sqnorm_zero {F : ℕ} : sqnorm (0 : Fin F → ℝ) = 0 := by
  simp [sqnorm]

theorem pynormalize_zero {F : ℕ} : pynormalize (0 : Fin F → ℝ) = 0 := by
  rw [pynormalize, if_pos]
  rw [sqnorm_zero]
  exact Real.sqrt_zero

theorem sqnorm_pynormalize {F : ℕ} (v : Fin F → ℝ) (h : v ≠ 0) :
    sqnorm (pynormalize v) = 1 := by
  have hpos : 0 < sqnorm v := sqnorm_pos_of_ne_zero v h
  have hsqpos : 0 < Real.sqrt (sqnorm v) := Real.sqrt_pos.mpr hpos
  rw [pynormalize, if_neg (ne_of_gt hsqpos)]
  have hterm : ∀ i : Fin F, (v i / Real.sqrt (sqnorm v)) ^ 2 = v i ^ 2 / sqnorm v := by
    intro i
    rw [div_pow, Real.sq_sqrt (le_of_lt hpos)]
  rw [sqnorm]
  simp only [hterm]
  rw [← Finset.sum_div, show (∑ i, v i ^ 2) = sqnorm v from rfl,
    div_self (ne_of_gt hpos)]

theorem pynormalize_ne_zero {F : ℕ} (v : Fin F → ℝ) (h : v ≠ 0) : pynormalize v ≠ 0 := by
  intro hc
  have h1 := sqnorm_pynormalize v h
  rw [hc, sqnorm_zero] at h1
  norm_num at h1

theorem abs_vec_ne_zero {F : ℕ} (w : Fin F → ℝ) (h : w ≠ 0) :
    (fun i => |w i|) ≠ (0 : Fin F → ℝ) := by
  intro hc
  apply h
  funext i
  have := congrFun hc i
  simpa using this

theorem sqnorm_random_angle {F : ℕ} (rand : ℕ → Fin F → ℝ) (t : ℕ) (h : rand t ≠ 0) :
    sqnorm (_random_angle rand t) = 1 :=
  sqnorm_pynormalize _ (abs_vec_ne_zero (rand t) h)

theorem random_angle_nonneg {F : ℕ} (rand : ℕ → Fin F → ℝ) (t : ℕ) :
    ∀ i, 0 ≤ _random_angle rand t i := by
  intro i
  rw [_random_angle, pynormalize]
  split
  · exact abs_nonneg _
  · exact div_nonneg (abs_nonneg _) (Real.sqrt_nonneg _)

theorem npArgmax_lt (f : ℕ → ℝ) (k : ℕ) (hk : 0 < k) : npArgmax f k < k := by
  rw [npArgmax]
  have hgen : ∀ (l : List ℕ) (b : ℕ), b < k → (∀ i ∈ l, i < k) →
      (l.foldl (fun best i => if f best < f i then i else best) b) < k := by
    intro l
    induction l with
    | nil =>
      intro b hb _
      simpa using hb
    | cons x xs ih =>
      intro b hb hall
      simp only [List.foldl_cons]
      apply ih
      · split
        · exact hall x (by simp)
        · exact hb
      · intro i hi
        exact hall i (by simp [hi])
  exact hgen (List.range k) 0 hk (fun i hi => List.mem_range.mp hi)

/-- A tiny concrete clusterer state (one feature, one cluster, one
record slot, constant unit draw stream) for concrete instantiations. -/
def oneState : IterativeSphericalKMeans 1 1 1 :=
  { k := 1
    num_records := 0
    next_to_replace := 0
    records := fun _ _ => 0
    medoids := fun _ _ => 0
    classes := fun _ => 0
    rand := fun _ _ => 1
    rand_pos := 0 }

theorem oneState_rand_ne_zero : ∀ t : ℕ, oneState.rand t ≠ 0 := by
  intro t hc
  have h1 := congrFun hc 0
  norm_num [oneState] at h1

theorem clampK_mem (max_k : ℕ) (hK : 1 ≤ max_k) (v : ℤ) :
    1 ≤ clampK max_k v ∧ clampK max_k v ≤ max_k := by
  rw [clampK]
  split
  · exact ⟨hK, le_refl _⟩
  · split
    · exact ⟨le_refl 1, hK⟩
    · rename_i h1 h2
      constructor <;> omega

/-- C7: with `1 ≤ max_k`, construction clamps `initial_k` into
`[1, max_k]`; `set_k` leaves `k` in `[1, max_k]` for every requested
integer (including 0, negatives, and values above `max_k`); and
`iterate`, `add_record` and `shuffle` do not change `k` at all, so the
invariant is preserved by every operation. -/
theorem skmeans_c7 (F K R : ℕ) (hK : 1 ≤ K) :
    (∀ (ik : ℤ) (rand garbage : ℕ → Fin F → ℝ),
      1 ≤ (init F K R ik rand garbage).k ∧ (init F K R ik rand garbage).k ≤ K) ∧
    (∀ (s : IterativeSphericalKMeans F K R) (nk : ℤ),
      1 ≤ (set_k s nk).k ∧ (set_k s nk).k ≤ K) ∧
    (∀ s : IterativeSphericalKMeans F K R, (iterate s).k = s.k) ∧
    (∀ (s : IterativeSphericalKMeans F K R) (x : Fin F → ℝ), (add_record s x).k = s.k) ∧
    (∀ s : IterativeSphericalKMeans F K R, (shuffle s).k = s.k) :=
  ⟨fun ik _ _ => clampK_mem K hK ik, fun _ nk => clampK_mem K hK nk,
    fun _ => rfl, fun _ _ => rfl, fun _ => rfl⟩

theorem skmeans_c7_witness :
    1 ≤ (init 1 1 1 5 (fun _ _ => 1) (fun _ _ => 0)).k ∧
    (init 1 1 1 5 (fun _ _ => 1) (fun _ _ => 0)).k ≤ 1 :=
  (skmeans_c7 1 1 1 (by norm_num)).1 5 (fun _ _ => 1) (fun _ _ => 0)

/-- C5: after `iterate()`, every active medoid has squared L2 norm 1 in
the exact embedding: a medoid whose normalized assigned-record sum is
nonzero is that normalized sum (norm 1), and a medoid whose sum
normalized to the zero vector is replaced by a fresh random angle
(norm 1, provided the `randn` draw is not the zero vector — an event of
probability zero). -/
theorem skmeans_c5 {F K R : ℕ} (s : IterativeSphericalKMeans F K R)
    (hr : ∀ t, s.rand t ≠ 0) :
    ∀ i < (iterate s).k, sqnorm ((iterate s).medoids i) = 1 := by
  intro i hi
  have hik : i < s.k := hi
  show sqnorm ((iterate s).medoids i) = 1
  simp only [iterate]
  rw [if_pos hik]
  split
  · exact sqnorm_random_angle s.rand _ (hr _)
  · rename_i h0
    apply sqnorm_pynormalize
    intro hc
    apply h0
    rw [hc]
    exact pynormalize_zero

theorem skmeans_c5_witness :
    (∀ t : ℕ, oneState.rand t ≠ 0) ∧ sqnorm ((iterate oneState).medoids 0) = 1 :=
  ⟨oneState_rand_ne_zero,
    skmeans_c5 oneState oneState_rand_ne_zero 0 (by norm_num [iterate, oneState])⟩

/-- C9: calling `iterate()` with zero active records is safe and fully
determined: the classification array is untouched, every active medoid
is replaced by a fresh random angle (the `t`-th medoid consuming the
`t`-th pending draw), each such medoid has squared norm 1 and
non-negative coordinates, and exactly `k` draws are consumed. -/
theorem skmeans_c9 {F K R : ℕ} (s : IterativeSphericalKMeans F K R)
    (h0 : s.num_records = 0) (hr : ∀ t, s.rand t ≠ 0) :
    (iterate s).classes = s.classes ∧
    (∀ i < s.k, (iterate s).medoids i = _random_angle s.rand (s.rand_pos + i)) ∧
    (∀ i < s.k, sqnorm ((iterate s).medoids i) = 1) ∧
    (∀ i < s.k, ∀ j, 0 ≤ (iterate s).medoids i j) ∧
    (iterate s).rand_pos = s.rand_pos + s.k := by
  have hcls : (iterate s).classes = s.classes := by
    funext p
    simp only [iterate]
    rw [if_neg (by omega)]
  have hm1 : ∀ i : ℕ,
      pynormalize (∑ p ∈ Finset.range s.num_records,
        if (iterate s).classes p = i then s.records p else (0 : Fin F → ℝ)) = 0 := by
    intro i
    rw [h0]
    simp only [Finset.range_zero, Finset.sum_empty]
    exact pynormalize_zero
  have hmed : ∀ i < s.k, (iterate s).medoids i = _random_angle s.rand (s.rand_pos + i) := by
    intro i hik
    show (iterate s).medoids i = _random_angle s.rand (s.rand_pos + i)
    simp only [iterate, h0, Finset.range_zero, Finset.sum_empty]
    rw [if_pos hik, if_pos pynormalize_zero]
    congr 1
    rw [Finset.filter_true_of_mem (fun j _ => pynormalize_zero), Finset.card_range]
  refine ⟨hcls, hmed, ?_, ?_, ?_⟩
  · intro i hik
    rw [hmed i hik]
    exact sqnorm_random_angle s.rand _ (hr _)
  · intro i hik j
    rw [hmed i hik]
    exact random_angle_nonneg s.rand _ j
  · simp only [iterate, h0, Finset.range_zero, Finset.sum_empty]
    rw [Finset.filter_true_of_mem (fun j _ => pynormalize_zero), Finset.card_range]

theorem skmeans_c9_witness :
    (iterate oneState).classes = oneState.classes ∧
    (iterate oneState).rand_pos = oneState.rand_pos + oneState.k := by
  have h := skmeans_c9 oneState rfl oneState_rand_ne_zero
  exact ⟨h.1, h.2.2.2.2⟩

/-- C10: `add_record` stores the sklearn-normalized input at the write
cursor: a unit vector (squared norm 1) for every nonzero input, and the
zero vector itself for an all-zero input (sklearn maps a zero row to
itself instead of raising). -/
theorem skmeans_c10 {F K R : ℕ} (s : IterativeSphericalKMeans F K R) (v : Fin F → ℝ) :
    (add_record s v).records s.next_to_replace = pynormalize v ∧
    (v ≠ 0 → sqnorm ((add_record s v).records s.next_to_replace) = 1) ∧
    (v = 0 → (add_record s v).records s.next_to_replace = 0) := by
  have hrec : (add_record s v).records s.next_to_replace = pynormalize v := by
    simp [add_record]
  refine ⟨hrec, fun hv => ?_, fun hv => ?_⟩
  · rw [hrec]
    exact sqnorm_pynormalize v hv
  · rw [hrec, hv]
    exact pynormalize_zero

theorem skmeans_c10_witness :
    (add_record oneState (fun _ => 3)).records oneState.next_to_replace =
      pynormalize (fun _ : Fin 1 => (3 : ℝ)) ∧
    sqnorm ((add_record oneState (fun _ => 3)).records oneState.next_to_replace) = 1 := by
  have hv : (fun _ : Fin 1 => (3 : ℝ)) ≠ (0 : Fin 1 → ℝ) := by
    intro hc
    have h1 := congrFun hc 0
    norm_num at h1
  have h := skmeans_c10 oneState (fun _ => 3)
  exact ⟨h.1, h.2.1 hv⟩

theorem clampK_eq_toNat (max_k : ℕ) (v : ℤ) (h1 : 1 ≤ v) (h2 : v ≤ (max_k : ℤ)) :
    clampK max_k v = v.toNat := by
  rw [clampK, if_neg (by omega), if_neg (by omega)]

/-- C3 counterexample state: two features, two active medoids, where
medoid 1 is stored as `(0, 1)` and every pending random draw is
`(1, 0)`. -/
def twoState : IterativeSphericalKMeans 2 2 2 :=
  { k := 2
    num_records := 0
    next_to_replace := 0
    records := fun _ _ => 0
    medoids := fun i j => if i = 1 ∧ j.val = 1 then 1 else 0
    classes := fun _ => 0
    rand := fun _ j => if j.val = 0 then 1 else 0
    rand_pos := 0 }

/-- C3 counterexample: lowering `k` from 2 to 1 retains the stored
medoid 1 in place, but raising `k` back to 2 does NOT reactivate the
stored value — the `while new_k > self.k` loop assigns a fresh
`_random_angle()` to the slot, so the medoid changes from `(0, 1)` to
the normalized draw `(1, 0)`. -/
theorem skmeans_c3_counterexample :
    (set_k twoState 1).medoids 1 = twoState.medoids 1 ∧
    (set_k (set_k twoState 1) 2).medoids 1 ≠ twoState.medoids 1 := by
  have hstep : (set_k (set_k twoState 1) 2).medoids 1 = _random_angle twoState.rand 0 := by
    simp only [set_k, clampK, twoState]
    norm_num
  have hval : _random_angle twoState.rand 0 1 = 0 := by
    rw [_random_angle, pynormalize]
    have hsq : sqnorm (fun i : Fin 2 => |twoState.rand 0 i|) = 1 := by
      rw [sqnorm, Fin.sum_univ_two]
      norm_num [twoState]
    rw [hsq, Real.sqrt_one, if_neg one_ne_zero]
    norm_num [twoState]
  constructor
  · show (set_k twoState 1).medoids 1 = twoState.medoids 1
    simp only [set_k, clampK, twoState]
    norm_num
  · intro hc
    rw [hstep] at hc
    have h1 := congrFun hc 1
    rw [hval] at h1
    have h2 : twoState.medoids 1 1 = 1 := by norm_num [twoState]
    rw [h2] at h1
    norm_num at h1

/-- C3 (amended): after `set_k` lowers `k` (clamped `new_k` at most the
current `k`), every medoid — in particular those beyond the new bound —
retains its stored value in place; but a later `set_k` that raises `k`
back overwrites each reactivated slot with a fresh random angle drawn
from the stream rather than reusing the stored value. -/
theorem skmeans_c3_amended {F K R : ℕ} (s : IterativeSphericalKMeans F K R)
    (new_k : ℤ) (h1 : 1 ≤ new_k) (h2 : new_k ≤ (s.k : ℤ)) (h3 : s.k ≤ K) :
    ((set_k s new_k).medoids = s.medoids ∧ (set_k s new_k).k = new_k.toNat) ∧
    (∀ i, new_k.toNat ≤ i → i < s.k →
      (set_k (set_k s new_k) (s.k : ℤ)).medoids i =
        _random_angle s.rand (s.rand_pos + (i - new_k.toNat))) ∧
    (set_k (set_k s new_k) (s.k : ℤ)).k = s.k := by
  have hclamp1 : clampK K new_k = new_k.toNat := clampK_eq_toNat K new_k h1 (by omega)
  have hle : new_k.toNat ≤ s.k := by omega
  have hmed1 : (set_k s new_k).medoids = s.medoids := by
    funext i
    show (if s.k ≤ i ∧ i < clampK K new_k then _ else s.medoids i) = s.medoids i
    rw [if_neg (by rw [hclamp1]; omega)]
  have hk1 : (set_k s new_k).k = new_k.toNat := hclamp1
  have hclamp2 : clampK K ((s.k : ℕ) : ℤ) = s.k := by
    rw [clampK_eq_toNat K _ (by omega) (by omega)]
    omega
  refine ⟨⟨hmed1, hk1⟩, ?_, hclamp2⟩
  intro i hge hlt
  show (if (set_k s new_k).k ≤ i ∧ i < clampK K ((s.k : ℕ) : ℤ) then
      _random_angle (set_k s new_k).rand ((set_k s new_k).rand_pos + (i - (set_k s new_k).k))
    else (set_k s new_k).medoids i) = _
  rw [if_pos (by rw [hk1, hclamp2]; exact ⟨hge, hlt⟩)]
  have hpos1 : (set_k s new_k).rand_pos = s.rand_pos := by
    show s.rand_pos + (clampK K new_k - s.k) = s.rand_pos
    rw [hclamp1]
    omega
  rw [hpos1, hk1]
  rfl

theorem skmeans_c3_witness :
    (set_k twoState 1).medoids = twoState.medoids ∧
    (set_k (set_k twoState 1) ((twoState.k : ℕ) : ℤ)).medoids 1 =
      _random_angle twoState.rand (twoState.rand_pos + (1 - (1 : ℤ).toNat)) := by
  have h := skmeans_c3_amended twoState 1 (by norm_num)
    (by norm_num [twoState]) (by norm_num [twoState])
  exact ⟨h.1.1, h.2.1 1 (by norm_num) (by norm_num [twoState])⟩

/-- C8 counterexample state: one feature, `max_k = 2`, one active
record classified to centroid 1. -/
def staleState : IterativeSphericalKMeans 1 2 1 :=
  { k := 2
    num_records := 1
    next_to_replace := 0
    records := fun _ _ => 0
    medoids := fun _ _ => 0
    classes := fun _ => 1
    rand := fun _ _ => 1
    rand_pos := 0 }

/-- C8 counterexample: from a state satisfying the invariant (the only
active record is classified to centroid 1 < k = 2), `set_k(1)` lowers
`k` without touching the classification array, leaving the active
record classified to the now-inactive centroid 1. -/
theorem skmeans_c8_counterexample :
    (∀ p < staleState.num_records, staleState.classes p < staleState.k) ∧
    ¬ (∀ p < (set_k staleState 1).num_records,
        (set_k staleState 1).classes p < (set_k staleState 1).k) := by
  constructor
  · intro p hp
    norm_num [staleState]
  · intro hcon
    have h := hcon 0 (by norm_num [set_k, staleState])
    revert h
    simp only [set_k, clampK, staleState]
    norm_num

/-- C8 (amended): construction (with `1 ≤ max_k`) establishes that every
classification entry is below `k`; `iterate` (for `k ≥ 1`),
`add_record` and `shuffle` preserve this invariant; a `set_k` preserves
it when the clamped new value does not decrease `k` — but a decreasing
`set_k` does not touch the classification array and can leave active
records pointing at inactive centroids. -/
theorem skmeans_c8_amended (F K R : ℕ) (hK : 1 ≤ K) :
    (∀ (ik : ℤ) (rand garbage : ℕ → Fin F → ℝ) (p : ℕ),
      (init F K R ik rand garbage).classes p < (init F K R ik rand garbage).k) ∧
    (∀ s : IterativeSphericalKMeans F K R, 1 ≤ s.k → (∀ p, s.classes p < s.k) →
      ∀ p, (iterate s).classes p < (iterate s).k) ∧
    (∀ (s : IterativeSphericalKMeans F K R) (x : Fin F → ℝ), (∀ p, s.classes p < s.k) →
      ∀ p, (add_record s x).classes p < (add_record s x).k) ∧
    (∀ s : IterativeSphericalKMeans F K R, (∀ p, s.classes p < s.k) →
      ∀ p, (shuffle s).classes p < (shuffle s).k) ∧
    (∀ (s : IterativeSphericalKMeans F K R) (nk : ℤ), (∀ p, s.classes p < s.k) →
      s.k ≤ (set_k s nk).k → ∀ p, (set_k s nk).classes p < (set_k s nk).k) := by
  refine ⟨?_, ?_, ?_, ?_, ?_⟩
  · intro ik rand g p
    exact (clampK_mem K hK ik).1
  · intro s hk hinv p
    show (iterate s).classes p < s.k
    simp only [iterate]
    split
    · exact npArgmax_lt _ s.k hk
    · exact hinv p
  · intro s x hinv p
    exact hinv p
  · intro s hinv p
    exact hinv p
  · intro s nk hinv hle p
    exact lt_of_lt_of_le (hinv p) hle

theorem skmeans_c8_witness :
    (iterate oneState).classes 0 < (iterate oneState).k :=
  (skmeans_c8_amended 1 1 1 (le_refl 1)).2.1 oneState (by norm_num [oneState])
    (fun p => by norm_num [oneState]) 0

theorem add_record_next {F K R : ℕ} (s : IterativeSphericalKMeans F K R)
    (x : Fin F → ℝ) (h : s.next_to_replace < R) :
    (add_record s x).next_to_replace = (s.next_to_replace + 1) % R := by
  show (if s.next_to_replace + 1 ≥ R then 0 else s.next_to_replace + 1) = _
  split
  · rename_i hge
    have heq : s.next_to_replace + 1 = R := by omega
    rw [heq, Nat.mod_self]
  · rename_i hlt
    rw [Nat.mod_eq_of_lt (by omega)]

theorem mod_shift_ne (R a d : ℕ) (ha : a < R) (hd1 : 0 < d) (hd2 : d < R) :
    (a + d) % R ≠ a := by
  intro hc
  have h2 : (a + d) ≡ a [MOD R] := by
    show (a + d) % R = a % R
    rw [hc, Nat.mod_eq_of_lt ha]
  have h3 : d ≡ 0 [MOD R] := by
    apply Nat.ModEq.add_left_cancel' a
    simpa using h2
  have h4 : R ∣ d := (Nat.modEq_zero_iff_dvd).mp h3
  have := Nat.le_of_dvd hd1 h4
  omega

theorem add_records_next {F K R : ℕ} (xs : List (Fin F → ℝ)) :
    ∀ s : IterativeSphericalKMeans F K R, s.next_to_replace < R →
      (add_records s xs).next_to_replace = (s.next_to_replace + xs.length) % R := by
  induction xs with
  | nil =>
    intro s h
    show s.next_to_replace = (s.next_to_replace + 0) % R
    rw [Nat.add_zero, Nat.mod_eq_of_lt h]
  | cons x xs ih =>
    intro s h
    have hR : 0 < R := by omega
    have hnext := add_record_next s x h
    have hinv : (add_record s x).next_to_replace < R := by
      rw [hnext]
      exact Nat.mod_lt _ hR
    show (add_records (add_record s x) xs).next_to_replace = _
    rw [ih _ hinv, hnext, Nat.mod_add_mod, List.length_cons]
    congr 1
    omega

theorem add_record_num {F K R : ℕ} (s : IterativeSphericalKMeans F K R)
    (x : Fin F → ℝ) (h : s.num_records ≤ R) :
    (add_record s x).num_records = min (s.num_records + 1) R := by
  show (if s.num_records < R then s.num_records + 1 else s.num_records) = _
  split <;> omega

theorem add_records_num {F K R : ℕ} (xs : List (Fin F → ℝ)) :
    ∀ s : IterativeSphericalKMeans F K R, s.num_records ≤ R →
      (add_records s xs).num_records = min (s.num_records + xs.length) R := by
  induction xs with
  | nil =>
    intro s h
    show s.num_records = min (s.num_records + 0) R
    omega
  | cons x xs ih =>
    intro s h
    have h1 := add_record_num s x h
    show (add_records (add_record s x) xs).num_records = _
    rw [ih _ (by omega), h1, List.length_cons]
    omega

theorem add_records_frame {F K R : ℕ} (xs : List (Fin F → ℝ)) :
    ∀ (s : IterativeSphericalKMeans F K R) (q : ℕ), s.next_to_replace < R →
      (∀ j < xs.length, (s.next_to_replace + j) % R ≠ q) →
      (add_records s xs).records q = s.records q := by
  induction xs with
  | nil =>
    intro s q _ _
    rfl
  | cons x xs ih =>
    intro s q h hnone
    have hR : 0 < R := by omega
    have hq0 : q ≠ s.next_to_replace := by
      have h0 := hnone 0 (by simp)
      rw [Nat.add_zero, Nat.mod_eq_of_lt h] at h0
      exact fun hc => h0 hc.symm
    have hstep : (add_record s x).records q = s.records q := by
      show (if q = s.next_to_replace then pynormalize x else s.records q) = s.records q
      rw [if_neg hq0]
    have hinv : (add_record s x).next_to_replace < R := by
      rw [add_record_next s x h]
      exact Nat.mod_lt _ hR
    have hframe : ∀ j < xs.length, ((add_record s x).next_to_replace + j) % R ≠ q := by
      intro j hj
      rw [add_record_next s x h, Nat.mod_add_mod]
      have hj1 := hnone (j + 1) (by simp [List.length_cons]; omega)
      rw [show s.next_to_replace + 1 + j = s.next_to_replace + (j + 1) from by omega]
      exact hj1
    show (add_records (add_record s x) xs).records q = s.records q
    rw [ih _ q hinv hframe, hstep]

theorem add_records_get {F K R : ℕ} (xs : List (Fin F → ℝ)) :
    ∀ (s : IterativeSphericalKMeans F K R) (j : ℕ) (hj : j < xs.length),
      s.next_to_replace < R → xs.length - j ≤ R →
      (add_records s xs).records ((s.next_to_replace + j) % R) =
        pynormalize (xs.get ⟨j, hj⟩) := by
  induction xs with
  | nil =>
    intro s j hj _ _
    simp at hj
  | cons x xs ih =>
    intro s j hj hn hlast
    have hR : 0 < R := by omega
    have hinv : (add_record s x).next_to_replace < R := by
      rw [add_record_next s x hn]
      exact Nat.mod_lt _ hR
    cases j with
    | zero =>
      rw [Nat.add_zero, Nat.mod_eq_of_lt hn]
      have hget0 : (add_record s x).records s.next_to_replace = pynormalize x := by
        show (if s.next_to_replace = s.next_to_replace then pynormalize x else _) = _
        rw [if_pos rfl]
      have hlen : xs.length + 1 ≤ R := by
        simpa [List.length_cons] using hlast
      have hframe : ∀ j2 < xs.length,
          ((add_record s x).next_to_replace + j2) % R ≠ s.next_to_replace := by
        intro j2 hj2
        rw [add_record_next s x hn, Nat.mod_add_mod]
        rw [show s.next_to_replace + 1 + j2 = s.next_to_replace + (1 + j2) from by omega]
        exact mod_shift_ne R s.next_to_replace (1 + j2) hn (by omega) (by omega)
      show (add_records (add_record s x) xs).records s.next_to_replace = _
      rw [add_records_frame xs _ _ hinv hframe, hget0]
      rfl
    | succ j2 =>
      have hslot : (s.next_to_replace + (j2 + 1)) % R =
          ((add_record s x).next_to_replace + j2) % R := by
        rw [add_record_next s x hn, Nat.mod_add_mod]
        congr 1
        omega
      rw [hslot]
      have hj2 : j2 < xs.length := by
        simpa [List.length_cons] using hj
      have hrec := ih (add_record s x) j2 hj2 hinv
        (by simp only [List.length_cons] at hlast; omega)
      show (add_records (add_record s x) xs).records _ = _
      rw [hrec]
      rfl

/-- C6: after strictly more than `max_records` calls of `add_record`
(from a state whose cursor is in range and whose count is within
capacity), the active count is exactly `max_records`, the write cursor
has advanced by the number of calls modulo `max_records`, and the
buffer holds exactly the last `max_records` inputs, normalized, in FIFO
order: input `j` (for `j` among the last `max_records`) sits in slot
`(cursor + j) mod max_records`. -/
theorem skmeans_c6 {F K R : ℕ} (s : IterativeSphericalKMeans F K R)
    (xs : List (Fin F → ℝ)) (hn : s.next_to_replace < R) (hnum : s.num_records ≤ R)
    (hlen : R < xs.length) :
    (add_records s xs).num_records = R ∧
    (add_records s xs).next_to_replace = (s.next_to_replace + xs.length) % R ∧
    (∀ j (hj : j < xs.length), xs.length - R ≤ j →
      (add_records s xs).records ((s.next_to_replace + j) % R) =
        pynormalize (xs.get ⟨j, hj⟩)) := by
  refine ⟨?_, add_records_next xs s hn, ?_⟩
  · rw [add_records_num xs s hnum]
    omega
  · intro j hj hge
    exact add_records_get xs s j hj hn (by omega)

/-- A concrete two-slot buffer state for instantiating C6. -/
def twoSlotState : IterativeSphericalKMeans 1 1 2 :=
  { k := 1
    num_records := 0
    next_to_replace := 0
    records := fun _ _ => 0
    medoids := fun _ _ => 0
    classes := fun _ => 0
    rand := fun _ _ => 1
    rand_pos := 0 }

theorem skmeans_c6_witness :
    (add_records twoSlotState [(fun _ => 1), (fun _ => 2), (fun _ => 3)]).num_records = 2 ∧
    (add_records twoSlotState [(fun _ => 1), (fun _ => 2), (fun _ => 3)]).next_to_replace =
      (twoSlotState.next_to_replace + 3) % 2 ∧
    (add_records twoSlotState [(fun _ => 1), (fun _ => 2), (fun _ => 3)]).records
        ((twoSlotState.next_to_replace + 2) % 2) =
      pynormalize (([(fun _ => 1), (fun _ => 2), (fun _ => 3)] :
        List (Fin 1 → ℝ)).get ⟨2, by norm_num⟩) := by
  have h := skmeans_c6 twoSlotState [(fun _ => 1), (fun _ => 2), (fun _ => 3)]
    (by norm_num [twoSlotState]) (by norm_num [twoSlotState]) (by norm_num)
  exact ⟨h.1, h.2.1, h.2.2 2 (by norm_num) (by norm_num)⟩

end

end Skmeans
